import Mathlib

/-!
Verification of the core of a Persian/Latin full-text search engine:
normalizer and tokenizer (`src/normalize.rs`), index builder and store
(`src/indexer.rs`), and the BM25 scorer, proximity boost and spelling
suggester (`src/search.rs`).

Rust machine integers (`usize`) are modelled as `Nat`, with an explicit
`% 2 ^ 64` at the one place where release-mode wrap-around is reachable
(the proximity-distance accumulator).  `f64` values are modelled as real
numbers, with `Real.log` for `f64::ln`.  `HashMap`s are modelled as
association lists whose lookup takes the first matching key; freshly
built maps have pairwise-distinct keys.
-/

namespace SearchEngine

/-- Model of Rust `char::is_numeric` restricted to the scripts this engine
targets: ASCII digits, Arabic-Indic digits (U+0660–U+0669) and extended
Arabic-Indic digits (U+06F0–U+06F9). -/
def isNumericChar (c : Char) : Bool :=
  (0x30 ≤ c.toNat && c.toNat ≤ 0x39) ||
  (0x660 ≤ c.toNat && c.toNat ≤ 0x669) ||
  (0x6F0 ≤ c.toNat && c.toNat ≤ 0x6F9)

/-- Model of Rust `char::is_alphabetic` restricted to the scripts this
engine targets: ASCII letters, the base Arabic letter block
U+0621–U+064A, and the extra Persian letters پ چ ژ ک گ ی. -/
def isAlphabeticChar (c : Char) : Bool :=
  (0x41 ≤ c.toNat && c.toNat ≤ 0x5A) ||
  (0x61 ≤ c.toNat && c.toNat ≤ 0x7A) ||
  (0x621 ≤ c.toNat && c.toNat ≤ 0x64A) ||
  c.toNat == 0x67E || c.toNat == 0x686 || c.toNat == 0x698 ||
  c.toNat == 0x6A9 || c.toNat == 0x6AF || c.toNat == 0x6CC

/-- Model of Rust `char::is_whitespace` (the Unicode `White_Space`
property), which is what `str::split_whitespace` splits on. -/
def isWhitespaceChar (c : Char) : Bool :=
  c.toNat == 0x20 || (0x9 ≤ c.toNat && c.toNat ≤ 0xD) ||
  c.toNat == 0x85 || c.toNat == 0xA0 || c.toNat == 0x1680 ||
  (0x2000 ≤ c.toNat && c.toNat ≤ 0x200A) ||
  c.toNat == 0x2028 || c.toNat == 0x2029 || c.toNat == 0x202F ||
  c.toNat == 0x205F || c.toNat == 0x3000

/-- Model of Rust `char::to_lowercase` on the modelled scripts: ASCII
uppercase maps to the corresponding lowercase letter, everything else is
returned unchanged.  The result is a list because the Rust method yields
an iterator of characters. -/
def toLowerChar (c : Char) : List Char :=
  if 0x41 ≤ c.toNat ∧ c.toNat ≤ 0x5A then [Char.ofNat (c.toNat + 32)] else [c]

/-- `Char::len_utf8`: the number of bytes of the UTF-8 encoding of a
character (exact for every Unicode scalar value). -/
def utf8Size (c : Char) : Nat :=
  if c.toNat < 0x80 then 1
  else if c.toNat < 0x800 then 2
  else if c.toNat < 0x10000 then 3
  else 4

/-- `str::len` of a word given as its character list: total UTF-8 bytes. -/
def utf8Len (w : List Char) : Nat := (w.map utf8Size).sum

/-- The zero-width non-joiner U+200C. -/
def zwnj : Char := Char.ofNat 0x200C

/-- The space (if any) that `normalize_text` pushes before handling the
current character `c`, given the tracked state `last_was_digit`
(`src/normalize.rs` lines 16–20). -/
def boundarySpace (last : Option Bool) (c : Char) : List Char :=
  match last with
  | some wasDigit =>
      if (wasDigit && isAlphabeticChar c) || (!wasDigit && isNumericChar c)
      then [' '] else []
  | none => []

/-- One iteration of the `for c in input.chars()` loop of
`normalize_text`: the characters appended to the output buffer and the
new `last_was_digit` state (`src/normalize.rs` lines 12–46). -/
def normStep (last : Option Bool) (c : Char) : List Char × Option Bool :=
  let pre := boundarySpace last c
  if c = 'ي' then (pre ++ ['ی'], some false)
  else if c = 'ك' then (pre ++ ['ک'], some false)
  else if c = zwnj then (pre ++ [' '], none)
  else if isAlphabeticChar c || isNumericChar c then
    (pre ++ toLowerChar c, some (isNumericChar c))
  else (pre ++ [' '], none)

/-- The loop of `normalize_text`, folding `normStep` over the input. -/
def normGo : Option Bool → List Char → List Char
  | _, [] => []
  | last, c :: cs =>
      let r := normStep last c
      r.1 ++ normGo r.2 cs

/-- `normalize_text` (`src/normalize.rs` lines 8–48). -/
def normalize_text (s : String) : String := String.mk (normGo none s.data)

/-- `str::split_whitespace` on a character list: split on whitespace
characters and keep only the non-empty chunks. -/
def splitWs (l : List Char) : List (List Char) :=
  (l.splitOnP isWhitespaceChar).filter (fun w => !w.isEmpty)

/-- `String::truncate (new_len)`: keep the longest prefix of the
character list whose UTF-8 byte count is at most `n`.  (Rust panics if
`new_len` is not a character boundary; at a boundary this is exact.) -/
def truncateBytes : List Char → Nat → List Char
  | [], _ => []
  | c :: cs, n => if utf8Size c ≤ n then c :: truncateBytes cs (n - utf8Size c) else []

/-- The per-word suffix-stripping step of `tokenize`
(`src/normalize.rs` lines 53–61).  Note that `word.len()` in Rust is the
UTF-8 **byte** length, and that `truncate` removes
`last_char.len_utf8() * 2` bytes. -/
def stemWord (w : List Char) : List Char :=
  if utf8Len w > 4 then
    if List.isSuffixOf ['ه', 'ا'] w || List.isSuffixOf ['ا', 'ن'] w then
      truncateBytes w (utf8Len w - utf8Size (w.getLastD ' ') * 2)
    else w
  else w

/-- `tokenize` (`src/normalize.rs` lines 50–63): split the normalized
text on whitespace and apply the suffix-stripping step to each word. -/
def tokenize (s : String) : List String :=
  (splitWs (normalize_text s).data).map (fun w => String.mk (stemWord w))

/-- Modelled from the spec's words for comparison with the code's
`tokenize` (refinement check for claim C1): the length guard of the
suffix rule reads `count_chars(w) > 4`, i.e. Unicode **character**
count, and stripping removes exactly the last two characters. -/
def stemWordSpecChars (w : List Char) : List Char :=
  if w.length > 4 ∧
      (List.isSuffixOf ['ه', 'ا'] w ∨ List.isSuffixOf ['ا', 'ن'] w) then
    w.take (w.length - 2)
  else w

/-- The spec's-words tokenizer built from `stemWordSpecChars`
(used only to exhibit where it differs from the code). -/
def tokenizeSpecChars (s : String) : List String :=
  (splitWs (normalize_text s).data).map (fun w => String.mk (stemWordSpecChars w))

theorem utf8Size_pos (c : Char) : 1 ≤ utf8Size c := by
  unfold utf8Size
  repeat' split
  all_goals omega

theorem utf8Len_cons (c : Char) (l : List Char) :
    utf8Len (c :: l) = utf8Size c + utf8Len l := by
  simp [utf8Len]

theorem truncateBytes_append (v u : List Char) (hu : u ≠ []) :
    truncateBytes (v ++ u) (utf8Len v) = v := by
  induction v with
  | nil =>
      cases u with
      | nil => exact absurd rfl hu
      | cons c cs =>
          have h1 := utf8Size_pos c
          show truncateBytes (c :: cs) 0 = []
          rw [truncateBytes, if_neg (by omega)]
  | cons c v ih =>
      show truncateBytes (c :: (v ++ u)) (utf8Len (c :: v)) = c :: v
      rw [utf8Len_cons, truncateBytes, if_pos (by omega)]
      have h2 : utf8Size c + utf8Len v - utf8Size c = utf8Len v := by omega
      rw [h2, ih]

theorem stem_trunc (v : List Char) (x y : Char)
    (hx : utf8Size x = 2) (hy : utf8Size y = 2) :
    truncateBytes (v ++ [x, y])
        (utf8Len (v ++ [x, y]) - utf8Size ((v ++ [x, y]).getLastD ' ') * 2) = v ∧
      (v ++ [x, y]).take ((v ++ [x, y]).length - 2) = v := by
  have hlast : (v ++ [x, y]).getLastD ' ' = y := by
    have h : v ++ [x, y] = (v ++ [x]) ++ [y] := by simp
    rw [h, List.getLastD_concat]
  have hlen : utf8Len (v ++ [x, y]) = utf8Len v + 4 := by
    simp [utf8Len, hx, hy]
  constructor
  · rw [hlast, hy, hlen]
    have h4 : utf8Len v + 4 - 2 * 2 = utf8Len v := by omega
    rw [h4, truncateBytes_append v [x, y] (by simp)]
  · have hl : (v ++ [x, y]).length = v.length + 2 := by simp
    rw [hl]
    exact List.take_left' (by omega)

/-- The per-word suffix rule, characterized: the byte-level truncation
removes exactly the last two characters, and fires exactly when the
UTF-8 byte length exceeds 4 and the word ends in ها or ان. -/
theorem stemWord_eq (w : List Char) :
    stemWord w =
      if 4 < utf8Len w ∧ (['ه', 'ا'] <:+ w ∨ ['ا', 'ن'] <:+ w) then
        w.take (w.length - 2)
      else w := by
  unfold stemWord
  have hbool : (['ه', 'ا'].isSuffixOf w || ['ا', 'ن'].isSuffixOf w) = true ↔
      (['ه', 'ا'] <:+ w ∨ ['ا', 'ن'] <:+ w) := by
    simp only [Bool.or_eq_true, List.isSuffixOf_iff_suffix]
  by_cases h4 : 4 < utf8Len w
  · by_cases hs : ['ه', 'ا'] <:+ w ∨ ['ا', 'ن'] <:+ w
    · rw [if_pos h4, if_pos (hbool.mpr hs), if_pos ⟨h4, hs⟩]
      rcases hs with h | h
      · obtain ⟨v, rfl⟩ := h
        exact ((stem_trunc v 'ه' 'ا' rfl rfl).1).trans
          ((stem_trunc v 'ه' 'ا' rfl rfl).2).symm
      · obtain ⟨v, rfl⟩ := h
        exact ((stem_trunc v 'ا' 'ن' rfl rfl).1).trans
          ((stem_trunc v 'ا' 'ن' rfl rfl).2).symm
    · rw [if_pos h4, if_neg (fun hc => hs (hbool.mp hc)),
        if_neg (fun hc => hs hc.2)]
  · rw [if_neg h4, if_neg (fun hc => h4 hc.1)]

/-- Claim C1 (counterexample): the length guard of the suffix rule is the
UTF-8 **byte** length, not the character count.  The word `aها` has 3
characters (so the claim's rule leaves it alone, as `tokenizeSpecChars`
shows) but 5 bytes, so the code truncates it to `a`. -/
theorem c1_counterexample :
    tokenize ("aها") = ["a"] ∧ tokenizeSpecChars ("aها") = ["aها"] ∧
      ("aها" : String).length = 3 := by decide

/-- Claim C1 (amended): for every input string, `tokenize` splits
`normalize_text(input)` on whitespace runs, and for each resulting word
`w` removes exactly the last two characters if and only if the UTF-8
**byte** count of `w` is strictly greater than 4 and `w` ends with ها
(U+0647 U+0627) or with ان (U+0627 U+0646); at most one truncation is
applied per word. -/
theorem c1_tokenize_suffix_rule (s : String) :
    tokenize s =
      (splitWs (normalize_text s).data).map
        (fun w =>
          String.mk
            (if 4 < utf8Len w ∧ (['ه', 'ا'] <:+ w ∨ ['ا', 'ن'] <:+ w) then
              w.take (w.length - 2)
            else w)) := by
  unfold tokenize
  simp only [stemWord_eq]

theorem boundarySpace_eq (last : Option Bool) (c : Char) :
    boundarySpace last c =
      if (last = some true ∧ isAlphabeticChar c) ∨
          (last = some false ∧ isNumericChar c) then [' ']
      else [] := by
  cases last with
  | none => simp [boundarySpace]
  | some b =>
      cases b
      · by_cases h : isNumericChar c <;> simp [boundarySpace, h]
      · by_cases h : isAlphabeticChar c <;> simp [boundarySpace, h]

theorem normStep_split (last : Option Bool) (c : Char) :
    normStep last c =
      (boundarySpace last c ++ (normStep none c).1, (normStep none c).2) := by
  by_cases h1 : c = 'ي' <;> by_cases h2 : c = 'ك' <;> by_cases h3 : c = zwnj <;>
    by_cases h4 : (isAlphabeticChar c || isNumericChar c) = true <;>
    simp +decide [normStep, boundarySpace, h1, h2, h3, h4]

theorem normStep_state (c : Char)
    (halnum : (isAlphabeticChar c || isNumericChar c) = true) (last : Option Bool) :
    (normStep last c).2 = some (isNumericChar c) := by
  rw [normStep_split]
  show (normStep none c).2 = some (isNumericChar c)
  by_cases h1 : c = 'ي'
  · subst h1; decide
  · by_cases h2 : c = 'ك'
    · subst h2; decide
    · have h3 : c ≠ zwnj := by
        intro h; subst h; exact absurd halnum (by decide)
      simp [normStep, boundarySpace, h1, h2, h3, halnum]

/-- Claim C7: `normalize_text` inserts a space exactly at letter/digit
boundaries between consecutive emitted alphanumeric characters (the
inserted prefix of each step's output depends on the tracked state as
stated, and the state after an alphanumeric character records whether it
was a digit), ZWNJ (U+200C) is mapped to a single space that resets the
boundary state, and consequently `tokenize "abc123" = ["abc", "123"]`,
`tokenize "123abc" = ["123", "abc"]`,
`normalize_text "ABC<ZWNJ>DEF" = "abc def"` and
`tokenize "ABC<ZWNJ>DEF" = ["abc", "def"]`. -/
theorem c7_normalize_boundary_and_zwnj :
    (∀ (last : Option Bool) (c : Char),
        (isAlphabeticChar c || isNumericChar c) = true →
        (normStep last c).1 =
            (if (last = some true ∧ isAlphabeticChar c) ∨
                (last = some false ∧ isNumericChar c) then [' ']
            else []) ++ (normStep none c).1 ∧
          (normStep last c).2 = some (isNumericChar c)) ∧
      (∀ last : Option Bool, normStep last zwnj = ([' '], none)) ∧
      tokenize ("abc123") = ["abc", "123"] ∧
      tokenize ("123abc") = ["123", "abc"] ∧
      normalize_text ("ABC‌DEF") = "abc def" ∧
      tokenize ("ABC‌DEF") = ["abc", "def"] := by
  refine ⟨?_, ?_, by decide, by decide, by decide, by decide⟩
  · intro last c halnum
    constructor
    · rw [normStep_split, boundarySpace_eq]
    · exact normStep_state c halnum last
  · intro last
    rw [normStep_split]
    have h1 : (normStep none zwnj).1 = [' '] := by decide
    have h2 : (normStep none zwnj).2 = none := by decide
    rw [h1, h2, boundarySpace_eq]
    have hz : ¬ ((last = some true ∧ isAlphabeticChar zwnj) ∨
        (last = some false ∧ isNumericChar zwnj)) := by
      rintro (⟨_, h⟩ | ⟨_, h⟩) <;> exact absurd h (by decide)
    rw [if_neg hz]
    rfl

/-- Witness for C7: the boundary clause at state `some true` reading the
letter `a`, the state clause at `some false` reading the digit `1`, and
the ZWNJ clause at state `some false`. -/
theorem c7_witness :
    ((normStep (some true) 'a').1 =
        (if ((some true : Option Bool) = some true ∧ isAlphabeticChar 'a') ∨
            ((some true : Option Bool) = some false ∧ isNumericChar 'a') then [' ']
        else []) ++ (normStep none 'a').1) ∧
      (normStep (some false) '1').2 = some (isNumericChar '1') ∧
      normStep (some false) zwnj = ([' '], none) :=
  ⟨(c7_normalize_boundary_and_zwnj.1 (some true) 'a' (by decide)).1,
    (c7_normalize_boundary_and_zwnj.1 (some false) '1' (by decide)).2,
    c7_normalize_boundary_and_zwnj.2.1 (some false)⟩

/-- `Posting` (`src/indexer.rs` lines 10–15). -/
structure Posting where
  doc_id : Nat
  tf : Nat
  positions : List Nat
deriving DecidableEq

/-- `DocMeta` (`src/indexer.rs` lines 17–23). -/
structure DocMeta where
  url : String
  title : String
  body : String
  length : Nat
deriving DecidableEq

/-- `IndexStore` (`src/indexer.rs` lines 25–30).  The Rust `dict` is a
`HashMap`; it is modelled as an association list whose lookup takes the
first matching key (maps built by the indexer have pairwise-distinct
keys), and whose iteration order is the list order. -/
structure IndexStore where
  dict : List (String × List Posting)
  docs : List DocMeta
  doc_count : Nat
deriving DecidableEq

/-- `index.dict.get(t)`. -/
def dictGet (dict : List (String × List Posting)) (t : String) :
    Option (List Posting) :=
  (dict.find? (fun e => e.1 == t)).map (fun e => e.2)

/-- `index.docs[i]`.  Rust panics when `i` is out of bounds; stores built
by `build_index` satisfy `doc_id < doc_count = docs.len()` (claim C3),
so within the specified usage the default is never read. -/
def docAt (docs : List DocMeta) (i : Nat) : DocMeta :=
  docs.getD i ⟨"", "", "", 0⟩

/-- Lookup in the `scores: HashMap<usize, f64>` accumulator, with the
`or_insert(0.0)` default. -/
noncomputable def scoresGet : List (Nat × ℝ) → Nat → ℝ
  | [], _ => 0
  | e :: rest, d => if e.1 = d then e.2 else scoresGet rest d

/-- `*scores.entry(d).or_insert(0.0) += v`. -/
noncomputable def addScore : List (Nat × ℝ) → Nat → ℝ → List (Nat × ℝ)
  | [], d, v => [(d, v)]
  | e :: rest, d, v =>
      if e.1 = d then (e.1, e.2 + v) :: rest else e :: addScore rest d v

/-- `K1` (`src/search.rs` line 5). -/
noncomputable def K1 : ℝ := 1.2

/-- `B` (`src/search.rs` line 6). -/
noncomputable def B : ℝ := 0.75

/-- `TITLE_WEIGHT` (`src/search.rs` line 7). -/
noncomputable def TITLE_WEIGHT : ℝ := 5.0

/-- `postings.iter().map(|p| p.doc_id).collect::<HashSet<_>>()`, as a
duplicate-free list. -/
def postingDocIds (ps : List Posting) : List Nat :=
  (ps.map (fun p => p.doc_id)).dedup

/-- The candidate-set collection loop of `search` (`src/search.rs` lines
15–22): one doc-id set per query term, or `none` as soon as a term is
absent from the dictionary (the loop `return vec![]`). -/
def collectSets (dict : List (String × List Posting)) :
    List String → Option (List (List Nat))
  | [] => some []
  | t :: ts =>
      match dictGet dict t with
      | none => none
      | some ps =>
          match collectSets dict ts with
          | none => none
          | some rest => some (postingDocIds ps :: rest)

/-- `sets.into_iter().reduce(|a, b| a.intersection(&b)...).unwrap_or_default()`
(`src/search.rs` lines 24–27). -/
def intersectAll : List (List Nat) → List Nat
  | [] => []
  | s :: rest => rest.foldl (fun a b => a.filter (fun x => x ∈ b)) s

/-- `avg_len` (`src/search.rs` lines 33–34): sum of document lengths
divided by `doc_count.max(1)`. -/
noncomputable def avgLen (index : IndexStore) : ℝ :=
  ((index.docs.map (fun d => d.length)).sum : ℕ) / ((max index.doc_count 1 : ℕ) : ℝ)

/-- `idf` for one term (`src/search.rs` lines 40–41), with `df` the
length of its posting list. -/
noncomputable def idfOf (index : IndexStore) (postings : List Posting) : ℝ :=
  Real.log (((index.doc_count : ℝ) - (postings.length : ℝ) + 0.5) /
      ((postings.length : ℝ) + 0.5) + 1)

/-- The BM25 contribution of one posting (`src/search.rs` lines 48–52). -/
noncomputable def bm25PostingScore (index : IndexStore) (idf : ℝ) (p : Posting) : ℝ :=
  let doc_len : ℝ := ((docAt index.docs p.doc_id).length : ℝ)
  let tf : ℝ := (p.tf : ℝ)
  let denom := tf + K1 * (1 - B + B * doc_len / max (avgLen index) 1)
  idf * (tf * (K1 + 1) / denom)

/-- The body of the inner posting loop of the BM25 accumulation
(`src/search.rs` lines 43–55): skip non-candidates, otherwise add the
posting's BM25 contribution to its document's score. -/
noncomputable def bm25Step (index : IndexStore) (candidates : List Nat)
    (postings : List Posting) (sc : List (Nat × ℝ)) (p : Posting) :
    List (Nat × ℝ) :=
  if p.doc_id ∈ candidates then
    addScore sc p.doc_id (bm25PostingScore index (idfOf index postings) p)
  else sc

/-- The BM25 accumulation loop of `search` (`src/search.rs` lines
38–57): iterate `qterms` in order (repeats contribute again), and for
each posting of the term whose doc id is a candidate, add its BM25
contribution to that document's score. -/
noncomputable def bm25Fold (index : IndexStore) (candidates : List Nat) :
    List String → List (Nat × ℝ) → List (Nat × ℝ)
  | [], scores => scores
  | term :: rest, scores =>
      bm25Fold index candidates rest
        (match dictGet index.dict term with
         | none => scores
         | some postings =>
             postings.foldl (bm25Step index candidates postings) scores)

/-- The body of the title-boost loop of `search` (`src/search.rs` lines
59–71). -/
noncomputable def titleStep (index : IndexStore) (qterms : List String)
    (sc : List (Nat × ℝ)) (doc_id : Nat) : List (Nat × ℝ) :=
  let title_tokens := tokenize (docAt index.docs doc_id).title
  let hits := (qterms.filter (fun t => t ∈ title_tokens)).length
  if 0 < hits then addScore sc doc_id ((hits : ℝ) * TITLE_WEIGHT) else sc

/-- The title-boost loop of `search` (`src/search.rs` lines 59–72). -/
noncomputable def titleBoostFold (index : IndexStore) (qterms : List String)
    (candidates : List Nat) (scores : List (Nat × ℝ)) : List (Nat × ℝ) :=
  candidates.foldl (titleStep index qterms) scores

/-- `usize::MAX`. -/
def USIZE_MAX : Nat := 2 ^ 64 - 1

/-- `usize::abs_diff`. -/
def abs_diff (a b : Nat) : Nat := if a ≤ b then b - a else a - b

/-- `best_pair_dist` (`src/search.rs` lines 107–115): minimum absolute
difference over all position pairs, starting from `usize::MAX`. -/
def bestPairDist (pos1 pos2 : List Nat) : Nat :=
  pos1.foldl (fun best a =>
    pos2.foldl (fun best b =>
      let d := abs_diff a b
      if d < best then d else best) best) USIZE_MAX

/-- `index.dict.get(t).and_then(|v| v.iter().find(|p| p.doc_id == doc_id))`
(`src/search.rs` lines 97–104). -/
def findPosting (index : IndexStore) (t : String) (doc_id : Nat) : Option Posting :=
  match dictGet index.dict t with
  | none => none
  | some v => v.find? (fun p => p.doc_id == doc_id)

/-- The per-document accumulation of `apply_proximity_boost`
(`src/search.rs` lines 93–119): fold over adjacent query-term pairs
(`windows(2)` = zip with tail); a pair with both postings present adds
its best distance to `min_total_dist` (a `usize`, hence the `% 2 ^ 64`)
and sets `pair_found`. -/
def proxAccum (index : IndexStore) (qterms : List String) (doc_id : Nat) :
    Nat × Bool :=
  (qterms.zip qterms.tail).foldl (fun acc pair =>
    match findPosting index pair.1 doc_id, findPosting index pair.2 doc_id with
    | some pos1, some pos2 =>
        ((acc.1 + bestPairDist pos1.positions pos2.positions) % 2 ^ 64, true)
    | _, _ => acc) (0, false)

/-- The banded boost of `apply_proximity_boost` (`src/search.rs` lines
122–127), with `n = qterms.len()`. -/
noncomputable def proxBoost (n : Nat) (d : Nat) : ℝ :=
  if d ≤ n - 1 then 5.0
  else if d ≤ (n - 1) * 2 then 2.5
  else if d ≤ (n - 1) * 5 then 1.0
  else 0.0

/-- The body of the per-candidate loop of `apply_proximity_boost`
(`src/search.rs` lines 92–129). -/
noncomputable def proxStep (index : IndexStore) (qterms : List String)
    (sc : List (Nat × ℝ)) (doc_id : Nat) : List (Nat × ℝ) :=
  let r := proxAccum index qterms doc_id
  if r.2 then addScore sc doc_id (proxBoost qterms.length r.1) else sc

/-- `apply_proximity_boost` (`src/search.rs` lines 82–131). -/
noncomputable def apply_proximity_boost (index : IndexStore) (qterms : List String)
    (candidates : List Nat) (scores : List (Nat × ℝ)) : List (Nat × ℝ) :=
  if qterms.length < 2 then scores
  else candidates.foldl (proxStep index qterms) scores

/-- The candidate list of `search` (`src/search.rs` lines 15–31): empty
both when a query term is absent (the early `return vec![]`) and when
the intersection is empty — `search` returns `[]` in either case. -/
def searchCandidates (index : IndexStore) (query : String) : List Nat :=
  match collectSets index.dict (tokenize query) with
  | none => []
  | some sets => intersectAll sets

/-- The fully accumulated score map of `search` (`src/search.rs` lines
36–74): BM25, then title boost, then proximity boost.  Its *content*
(the score of each document) is deterministic; only the enumeration
order of the backing `HashMap` is not. -/
noncomputable def scoresPipeline (index : IndexStore) (qterms : List String)
    (candidates : List Nat) : List (Nat × ℝ) :=
  apply_proximity_boost index qterms candidates
    (titleBoostFold index qterms candidates (bm25Fold index candidates qterms []))

/-- The hidden per-call state of `search`: `scores` is a fresh
`HashMap` whose `RandomState` hash seed comes from mutable thread-local
state, so `scores.into_iter()` at `src/search.rs` line 76 enumerates
the accumulated entries in a per-call unpredictable order before the
stable descending sort.  Modelled as an explicit reordering function. -/
def IterOrder : Type := List (Nat × ℝ) → List (Nat × ℝ)

/-- A reordering is a possible `HashMap` enumeration when it always
yields a permutation of the entries. -/
def LawfulIterOrder (σ : IterOrder) : Prop := ∀ l, List.Perm (σ l) l

/-- `search` (`src/search.rs` lines 9–80) with the hidden state made
explicit: `σ` is the per-call enumeration order of the `scores` map.
The final `sort_by(|a, b| b.1.partial_cmp(&a.1)...)` is a stable
descending sort on the score; `truncate(top_k)` is `take`. -/
noncomputable def searchWithState (σ : IterOrder) (index : IndexStore)
    (query : String) (top_k : Nat) : List (Nat × ℝ) :=
  let qterms := tokenize query
  if qterms.isEmpty then []
  else
    let candidates := searchCandidates index query
    if candidates.isEmpty then []
    else
      ((σ (scoresPipeline index qterms candidates)).mergeSort
        (fun a b => decide (b.2 ≤ a.2))).take top_k

/-- `search` at the identity enumeration order: the determinization of
`searchWithState`.  Any lawful order yields the same result up to the
order of exactly tied scores (see the C9 theorems). -/
noncomputable def search (index : IndexStore) (query : String) (top_k : Nat) :
    List (Nat × ℝ) :=
  searchWithState (fun l => l) index query top_k

/-- The DP table of `damerau_levenshtein` (`src/search.rs` lines
133–168): `dlDP a b i j` is `dp[i][j]`, including the
adjacent-transposition candidate. -/
def dlDP (a b : List Char) : Nat → Nat → Nat
  | 0, j => j
  | i + 1, 0 => i + 1
  | i + 1, j + 1 =>
      let cost := if a.getD i ' ' = b.getD j ' ' then 0 else 1
      let base :=
        min (dlDP a b i (j + 1) + 1)
          (min (dlDP a b (i + 1) j + 1) (dlDP a b i j + cost))
      match i, j with
      | i' + 1, j' + 1 =>
          if a.getD (i' + 1) ' ' = b.getD j' ' ' ∧ a.getD i' ' ' = b.getD (j' + 1) ' '
          then min base (dlDP a b i' j' + 1)
          else base
      | _, _ => base
termination_by i j => (i, j)

/-- `damerau_levenshtein` (`src/search.rs` lines 133–168). -/
def damerau_levenshtein (a b : String) : Nat :=
  dlDP a.data b.data a.data.length b.data.length

/-- The candidate score of `suggest_terms` (`src/search.rs` lines
184–185): `-(dist) * 3 + ln(df + 1)`. -/
noncomputable def suggestScore (token : String) (t : String) (ps : List Posting) : ℝ :=
  -((damerau_levenshtein t token : ℝ)) * 3.0 + Real.log ((ps.length : ℝ) + 1.0)

/-- The candidate list of `suggest_terms` (`src/search.rs` lines
176–187): iterate the dictionary (model: list order), keep the terms
within `max_dist`, and pair them with their scores. -/
noncomputable def suggestCands (index : IndexStore) (token : String)
    (max_dist : Nat) : List (String × ℝ) :=
  index.dict.filterMap (fun e =>
    if damerau_levenshtein e.1 token ≤ max_dist then
      some (e.1, suggestScore token e.1 e.2)
    else none)

/-- `suggest_terms` (`src/search.rs` lines 170–195). -/
noncomputable def suggest_terms (index : IndexStore) (token : String)
    (max_dist : Nat) (max_suggestions : Nat) : List String :=
  (((suggestCands index token max_dist).mergeSort
      (fun a b => decide (b.2 ≤ a.2))).take max_suggestions).map
    (fun e => e.1)

theorem collectSets_eq_none {dict : List (String × List Posting)} {ts : List String}
    {t : String} (ht : t ∈ ts) (habs : dictGet dict t = none) :
    collectSets dict ts = none := by
  induction ts with
  | nil => cases ht
  | cons s ss ih =>
      rcases List.mem_cons.mp ht with rfl | hmem
      · simp [collectSets, habs]
      · cases hd : dictGet dict s <;> simp [collectSets, hd, ih hmem]

/-- Claim C2: `search` returns the empty list when the tokenized query is
empty and when any query term is absent from the dictionary.  (Totality
of `search` and `suggest_terms` is inherent in the embedding: both are
Lean functions returning a value for every input.) -/
theorem c2_search_empty_cases (index : IndexStore) (query : String) (top_k : Nat) :
    (tokenize query = [] → search index query top_k = []) ∧
      (∀ t ∈ tokenize query, dictGet index.dict t = none →
        search index query top_k = []) := by
  constructor
  · intro h
    simp [search, searchWithState, h]
  · intro t ht habs
    have hne : ¬ (tokenize query).isEmpty = true := by
      cases hq : tokenize query with
      | nil => rw [hq] at ht; cases ht
      | cons a l => simp
    have hcand : searchCandidates index query = [] := by
      unfold searchCandidates
      rw [collectSets_eq_none ht habs]
    simp only [search, searchWithState]
    rw [if_neg hne, hcand]
    rfl

/-- Witness for C2 at a concrete empty store, with an empty query and
with a query term absent from the dictionary. -/
theorem c2_witness :
    search ⟨[], [], 0⟩ "" 5 = [] ∧ search ⟨[], [], 0⟩ ("zzz") 5 = [] :=
  ⟨(c2_search_empty_cases ⟨[], [], 0⟩ "" 5).1 (by decide),
    (c2_search_empty_cases ⟨[], [], 0⟩ ("zzz") 5).2 "zzz" (by decide) (by decide)⟩

theorem scoresGet_addScore (scores : List (Nat × ℝ)) (e : Nat) (v : ℝ) (d : Nat) :
    scoresGet (addScore scores e v) d =
      scoresGet scores d + if d = e then v else 0 := by
  induction scores with
  | nil =>
      by_cases h : d = e
      · subst h; simp [addScore, scoresGet]
      · show (if e = d then v else (0 : ℝ)) = 0 + if d = e then v else 0
        rw [if_neg (fun hc => h hc.symm), if_neg h, add_zero]
  | cons p rest ih =>
      show scoresGet
          (if p.1 = e then (p.1, p.2 + v) :: rest else p :: addScore rest e v) d = _
      by_cases hpe : p.1 = e
      · rw [if_pos hpe]
        by_cases hd : p.1 = d
        · have hde : d = e := hd.symm.trans hpe
          simp [scoresGet, hd, hde]
        · have hde : ¬ d = e := fun hc => hd (hpe.trans hc.symm)
          simp [scoresGet, hd, hde]
      · rw [if_neg hpe]
        by_cases hd : p.1 = d
        · have hde : ¬ d = e := fun hc => hpe (hd.trans hc)
          simp [scoresGet, hd, hde]
        · simp [scoresGet, hd, ih]

/-- A fold of per-key score updates reads back, at key `d`, as the sum
of the amounts of the folded elements whose key is `d`. -/
theorem scoresGet_foldl {α : Type} (key : α → Nat) (amt : α → ℝ)
    (f : List (Nat × ℝ) → α → List (Nat × ℝ))
    (hf : ∀ sc a d, scoresGet (f sc a) d =
      scoresGet sc d + if d = key a then amt a else 0) :
    ∀ (l : List α) (sc : List (Nat × ℝ)) (d : Nat),
      scoresGet (l.foldl f sc) d =
        scoresGet sc d + ((l.filter (fun a => key a == d)).map amt).sum := by
  intro l
  induction l with
  | nil => intro sc d; simp
  | cons a l ih =>
      intro sc d
      rw [List.foldl_cons, ih, hf]
      by_cases h : d = key a
      · rw [if_pos h, List.filter_cons_of_pos (by simp [h]), List.map_cons,
          List.sum_cons]
        ring
      · rw [if_neg h, add_zero,
          List.filter_cons_of_neg (by simp only [beq_iff_eq]; exact fun hc => h hc.symm)]

/-- Over a duplicate-free list containing `d`, the per-key sum collapses
to the single amount at `d`. -/
theorem sum_filter_single (amt : Nat → ℝ) (l : List Nat) (d : Nat)
    (hnd : l.Nodup) (hd : d ∈ l) :
    ((l.filter (fun c => c == d)).map amt).sum = amt d := by
  induction l with
  | nil => cases hd
  | cons a l ih =>
      rcases List.mem_cons.mp hd with heq | hmem
      · rw [List.filter_cons_of_pos (by simp [heq])]
        have hnotin : a ∉ l := (List.nodup_cons.mp hnd).1
        have hfl : l.filter (fun c => c == d) = [] := by
          rw [List.filter_eq_nil_iff]
          intro c hc
          simp only [beq_iff_eq]
          exact fun hc2 => hnotin ((hc2.trans heq) ▸ hc)
        rw [hfl]
        simp [heq]
      · have hne : ¬ (a = d) := fun hc => (List.nodup_cons.mp hnd).1 (hc ▸ hmem)
        rw [List.filter_cons_of_neg (by simp only [beq_iff_eq]; exact hne)]
        exact ih (List.nodup_cons.mp hnd).2 hmem

theorem scoresGet_bm25Inner (index : IndexStore) (candidates : List Nat)
    (postings : List Posting) (sc : List (Nat × ℝ)) (d : Nat) :
    scoresGet (postings.foldl (bm25Step index candidates postings) sc) d =
      scoresGet sc d +
        ((postings.filter (fun p => p.doc_id == d)).map (fun p =>
          if p.doc_id ∈ candidates then
            bm25PostingScore index (idfOf index postings) p
          else 0)).sum := by
  refine scoresGet_foldl (fun p => p.doc_id)
      (fun p => if p.doc_id ∈ candidates then
        bm25PostingScore index (idfOf index postings) p else 0)
      (bm25Step index candidates postings) ?_ postings sc d
  intro sc a d
  unfold bm25Step
  by_cases hmem : a.doc_id ∈ candidates
  · rw [if_pos hmem, scoresGet_addScore]
    simp [hmem]
  · rw [if_neg hmem]
    by_cases h : d = a.doc_id <;> simp [h, hmem]

/-- The total BM25 amount that claim C4 says one occurrence of query
term `t` adds to the score of document `d`, spelled directly from the
claim's formula: `df = len(dict[t])`,
`idf = ln((doc_count − df + 0.5)/(df + 0.5) + 1)`,
`denom = tf + K1·(1 − B + B·dl/max(1, avg_len))` with `K1 = 1.2`,
`B = 0.75`, `dl = docs[d].length`,
`avg_len = (Σ lengths)/max(1, doc_count)`, and addend
`idf·(tf·(K1 + 1))/denom` for each posting of `t` with this doc id
(a candidate document only). -/
noncomputable def bm25SpecContribution (index : IndexStore) (candidates : List Nat)
    (t : String) (d : Nat) : ℝ :=
  match dictGet index.dict t with
  | none => 0
  | some postings =>
      if d ∈ candidates then
        ((postings.filter (fun p => p.doc_id == d)).map (fun p =>
          Real.log (((index.doc_count : ℝ) - (postings.length : ℝ) + 0.5) /
              ((postings.length : ℝ) + 0.5) + 1) *
            ((p.tf : ℝ) * (1.2 + 1)) /
            ((p.tf : ℝ) + 1.2 * (1 - 0.75 +
              0.75 * ((docAt index.docs d).length : ℝ) /
                max 1 ((((index.docs.map (fun dm => dm.length)).sum : ℕ) : ℝ) /
                  ((max 1 index.doc_count : ℕ) : ℝ)))))).sum
      else 0

theorem bm25PostingScore_spelled (index : IndexStore) (postings : List Posting)
    (p : Posting) :
    bm25PostingScore index (idfOf index postings) p =
      Real.log (((index.doc_count : ℝ) - (postings.length : ℝ) + 0.5) /
          ((postings.length : ℝ) + 0.5) + 1) *
        ((p.tf : ℝ) * (1.2 + 1)) /
        ((p.tf : ℝ) + 1.2 * (1 - 0.75 +
          0.75 * ((docAt index.docs p.doc_id).length : ℝ) /
            max 1 ((((index.docs.map (fun dm => dm.length)).sum : ℕ) : ℝ) /
              ((max 1 index.doc_count : ℕ) : ℝ)))) := by
  simp only [bm25PostingScore, idfOf, K1, B, avgLen]
  rw [Nat.max_comm index.doc_count 1, max_comm _ (1 : ℝ), ← mul_div_assoc]

/-- Claim C4: the BM25 accumulation adds, for each occurrence of a query
term and each of its postings on a candidate document, exactly the BM25
formula of the claim to that document's score. -/
theorem c4_bm25_accumulator (index : IndexStore) (candidates : List Nat)
    (qterms : List String) (scores : List (Nat × ℝ)) (d : Nat) :
    scoresGet (bm25Fold index candidates qterms scores) d =
      scoresGet scores d +
        (qterms.map (fun t => bm25SpecContribution index candidates t d)).sum := by
  induction qterms generalizing scores with
  | nil => simp [bm25Fold]
  | cons t ts ih =>
      rw [show bm25Fold index candidates (t :: ts) scores =
            bm25Fold index candidates ts
              (match dictGet index.dict t with
               | none => scores
               | some postings =>
                   postings.foldl (bm25Step index candidates postings) scores)
          from rfl, ih]
      cases hdg : dictGet index.dict t with
      | none => simp [bm25SpecContribution, hdg]
      | some postings =>
          simp only [List.map_cons, List.sum_cons, bm25SpecContribution, hdg]
          rw [scoresGet_bm25Inner]
          by_cases hc : d ∈ candidates
          · rw [if_pos hc]
            have hmap : (postings.filter (fun p => p.doc_id == d)).map (fun p =>
                if p.doc_id ∈ candidates then
                  bm25PostingScore index (idfOf index postings) p
                else 0) =
                (postings.filter (fun p => p.doc_id == d)).map (fun p =>
                  Real.log (((index.doc_count : ℝ) - (postings.length : ℝ) + 0.5) /
                      ((postings.length : ℝ) + 0.5) + 1) *
                    ((p.tf : ℝ) * (1.2 + 1)) /
                    ((p.tf : ℝ) + 1.2 * (1 - 0.75 +
                      0.75 * ((docAt index.docs d).length : ℝ) /
                        max 1 ((((index.docs.map (fun dm => dm.length)).sum : ℕ) : ℝ) /
                          ((max 1 index.doc_count : ℕ) : ℝ))))) := by
              apply List.map_congr_left
              intro p hp
              have hpd : p.doc_id = d := by
                have := (List.mem_filter.mp hp).2
                simpa using this
              rw [if_pos (hpd ▸ hc), bm25PostingScore_spelled, hpd]
            rw [hmap]
            ring
          · rw [if_neg hc]
            have hmap0 : ((postings.filter (fun p => p.doc_id == d)).map (fun p =>
                if p.doc_id ∈ candidates then
                  bm25PostingScore index (idfOf index postings) p
                else 0)).sum = 0 := by
              apply List.sum_eq_zero
              intro x hx
              rcases List.mem_map.mp hx with ⟨p, hp, rfl⟩
              have hpd : p.doc_id = d := by
                have := (List.mem_filter.mp hp).2
                simpa using this
              rw [if_neg (hpd ▸ hc)]
            rw [hmap0]
            ring

/-- Witness for C4/C10/C6: a two-token document. -/
def wDoc : DocMeta := ⟨"u", "a t", "b", 2⟩

/-- Witness store: one document, term `a` at position 0. -/
def wIdx : IndexStore := ⟨[("a", [⟨0, 1, [0]⟩])], [wDoc], 1⟩

/-- Witness store: one document, adjacent terms `a` and `b`. -/
def wIdx2 : IndexStore :=
  ⟨[("a", [⟨0, 1, [0]⟩]), ("b", [⟨0, 1, [1]⟩])], [wDoc], 1⟩

theorem titleStep_get (index : IndexStore) (qterms : List String)
    (sc : List (Nat × ℝ)) (c d : Nat) :
    scoresGet (titleStep index qterms sc c) d =
      scoresGet sc d +
        if d = c then
          ((qterms.filter
            (fun t => t ∈ tokenize (docAt index.docs c).title)).length : ℝ) *
            TITLE_WEIGHT
        else 0 := by
  simp only [titleStep]
  by_cases hh : 0 <
      (qterms.filter (fun t => t ∈ tokenize (docAt index.docs c).title)).length
  · rw [if_pos hh, scoresGet_addScore]
  · rw [if_neg hh]
    have h0 : (qterms.filter
        (fun t => t ∈ tokenize (docAt index.docs c).title)).length = 0 := by omega
    rw [h0]
    simp

/-- Claim C10: for each candidate document, the title boost adds exactly
5.0 for every occurrence (with multiplicity) of a query term among the
document's tokenized-title tokens; title-internal multiplicity does not
matter because the test is membership. -/
theorem c10_title_boost (index : IndexStore) (qterms : List String)
    (candidates : List Nat) (scores : List (Nat × ℝ)) (d : Nat)
    (hnd : candidates.Nodup) (hd : d ∈ candidates) :
    scoresGet (titleBoostFold index qterms candidates scores) d =
      scoresGet scores d +
        ((qterms.filter
          (fun t => t ∈ tokenize (docAt index.docs d).title)).length : ℝ) * 5 := by
  unfold titleBoostFold
  rw [scoresGet_foldl (fun c => c)
      (fun c => ((qterms.filter
        (fun t => t ∈ tokenize (docAt index.docs c).title)).length : ℝ) * TITLE_WEIGHT)
      (titleStep index qterms) (titleStep_get index qterms) candidates scores d]
  show scoresGet scores d + ((candidates.filter (fun a => a == d)).map
      (fun c => ((qterms.filter
        (fun t => t ∈ tokenize (docAt index.docs c).title)).length : ℝ) *
        TITLE_WEIGHT)).sum = _
  rw [sum_filter_single _ candidates d hnd hd]
  norm_num [TITLE_WEIGHT]

/-- Witness for C10 at a one-document store whose title contains the
query term. -/
theorem c10_witness :
    scoresGet (titleBoostFold wIdx ["a"] [0] []) 0 =
      scoresGet [] 0 +
        (((["a"] : List String).filter
          (fun t => t ∈ tokenize (docAt wIdx.docs 0).title)).length : ℝ) * 5 :=
  c10_title_boost wIdx ["a"] [0] [] 0 (by decide) (by decide)

theorem mergeSort_desc_trans : ∀ a b c : Nat × ℝ,
    (fun a b : Nat × ℝ => decide (b.2 ≤ a.2)) a b →
    (fun a b : Nat × ℝ => decide (b.2 ≤ a.2)) b c →
    (fun a b : Nat × ℝ => decide (b.2 ≤ a.2)) a c := by
  intro a b c h1 h2
  exact decide_eq_true (le_trans (of_decide_eq_true h2) (of_decide_eq_true h1))

theorem mergeSort_desc_total : ∀ a b : Nat × ℝ,
    ((fun a b : Nat × ℝ => decide (b.2 ≤ a.2)) a b ||
      (fun a b : Nat × ℝ => decide (b.2 ≤ a.2)) b a) = true := by
  intro a b
  rcases le_total a.2 b.2 with h | h <;> simp [h]

/-- Two sorted permutations are equal when the order is antisymmetric on
the elements actually present (exact ties are then genuine duplicates). -/
theorem eq_of_perm_of_sorted_ties {α : Type} (r : α → α → Prop) :
    ∀ (l₁ l₂ : List α), List.Perm l₁ l₂ → l₁.Pairwise r → l₂.Pairwise r →
      (∀ a ∈ l₁, ∀ b ∈ l₁, r a b → r b a → a = b) → l₁ = l₂ := by
  intro l₁
  induction l₁ with
  | nil => intro l₂ hp _ _ _; exact hp.nil_eq
  | cons a t₁ ih =>
      intro l₂ hp hs₁ hs₂ hanti
      cases l₂ with
      | nil => exact absurd hp.length_eq (by simp)
      | cons x t₂ =>
          have hax : a = x := by
            by_cases h : a = x
            · exact h
            · have ha2 : a ∈ x :: t₂ := hp.mem_iff.mp (List.mem_cons_self a t₁)
              have hat2 : a ∈ t₂ := by
                rcases List.mem_cons.mp ha2 with h' | h'
                · exact absurd h' h
                · exact h'
              have hx1 : x ∈ a :: t₁ := hp.mem_iff.mpr (List.mem_cons_self x t₂)
              have hxt1 : x ∈ t₁ := by
                rcases List.mem_cons.mp hx1 with h' | h'
                · exact absurd h'.symm h
                · exact h'
              have hrxa : r x a := (List.pairwise_cons.mp hs₂).1 a hat2
              have hrax : r a x := (List.pairwise_cons.mp hs₁).1 x hxt1
              exact hanti a (List.mem_cons_self a t₁) x hx1 hrax hrxa
          subst hax
          have hp' : List.Perm t₁ t₂ := hp.cons_inv
          rw [ih t₂ hp' (List.pairwise_cons.mp hs₁).2 (List.pairwise_cons.mp hs₂).2
            (fun u hu v hv hruv hrvu =>
              hanti u (List.mem_cons_of_mem a hu) v (List.mem_cons_of_mem a hv)
                hruv hrvu)]

/-- The ranking step of `search` under two lawful enumeration orders of
the score map: the sorted score sequences coincide, and the sorted lists
themselves coincide whenever no two entries carry exactly equal scores. -/
theorem ranked_eq_up_to_ties (σ₁ σ₂ : IterOrder) (h₁ : LawfulIterOrder σ₁)
    (h₂ : LawfulIterOrder σ₂) (l : List (Nat × ℝ)) :
    (((σ₁ l).mergeSort (fun a b => decide (b.2 ≤ a.2))).map Prod.snd =
      ((σ₂ l).mergeSort (fun a b => decide (b.2 ≤ a.2))).map Prod.snd) ∧
      ((∀ a ∈ l, ∀ b ∈ l, a.2 = b.2 → a = b) →
        (σ₁ l).mergeSort (fun a b => decide (b.2 ≤ a.2)) =
          (σ₂ l).mergeSort (fun a b => decide (b.2 ≤ a.2))) := by
  have hperm : List.Perm ((σ₁ l).mergeSort (fun a b => decide (b.2 ≤ a.2)))
      ((σ₂ l).mergeSort (fun a b => decide (b.2 ≤ a.2))) :=
    ((List.mergeSort_perm _ _).trans (h₁ l)).trans
      ((h₂ l).symm.trans (List.mergeSort_perm _ _).symm)
  have hs₁ := List.sorted_mergeSort mergeSort_desc_trans mergeSort_desc_total (σ₁ l)
  have hs₂ := List.sorted_mergeSort mergeSort_desc_trans mergeSort_desc_total (σ₂ l)
  have hp₁ : ((σ₁ l).mergeSort (fun a b => decide (b.2 ≤ a.2))).Pairwise
      (fun a b : Nat × ℝ => b.2 ≤ a.2) :=
    hs₁.imp (fun h => of_decide_eq_true h)
  have hp₂ : ((σ₂ l).mergeSort (fun a b => decide (b.2 ≤ a.2))).Pairwise
      (fun a b : Nat × ℝ => b.2 ≤ a.2) :=
    hs₂.imp (fun h => of_decide_eq_true h)
  constructor
  · haveI hanti : IsAntisymm ℝ (fun x y : ℝ => y ≤ x) :=
      ⟨fun a b hab hba => le_antisymm hba hab⟩
    exact @List.eq_of_perm_of_sorted ℝ (fun x y : ℝ => y ≤ x) hanti _ _
      (hperm.map Prod.snd)
      (List.pairwise_map.mpr hp₁) (List.pairwise_map.mpr hp₂)
  · intro hnt
    apply eq_of_perm_of_sorted_ties (fun a b : Nat × ℝ => b.2 ≤ a.2) _ _ hperm hp₁ hp₂
    intro a ha b hb hab hba
    have ha' : a ∈ l := ((List.mergeSort_perm _ _).trans (h₁ l)).mem_iff.mp ha
    have hb' : b ∈ l := ((List.mergeSort_perm _ _).trans (h₁ l)).mem_iff.mp hb
    exact hnt a ha' b hb' (le_antisymm hba hab)

/-- Claim C9 (amended): the Rust `search` reads hidden per-call state —
the `RandomState` hash seed of its fresh `scores: HashMap` — but that
state surfaces only through the enumeration order of exactly tied
scores fed to the stable sort.  For any two lawful per-call enumeration
orders, the two calls return result lists with identical ranked score
sequences, and identical lists whenever no two accumulated entries
carry exactly equal scores. -/
theorem c9_search_deterministic_up_to_ties (σ₁ σ₂ : IterOrder)
    (h₁ : LawfulIterOrder σ₁) (h₂ : LawfulIterOrder σ₂)
    (index : IndexStore) (query : String) (top_k : Nat) :
    ((searchWithState σ₁ index query top_k).map Prod.snd =
      (searchWithState σ₂ index query top_k).map Prod.snd) ∧
      ((∀ a ∈ scoresPipeline index (tokenize query) (searchCandidates index query),
          ∀ b ∈ scoresPipeline index (tokenize query) (searchCandidates index query),
            a.2 = b.2 → a = b) →
        searchWithState σ₁ index query top_k =
          searchWithState σ₂ index query top_k) := by
  simp only [searchWithState]
  by_cases hq : (tokenize query).isEmpty = true
  · simp [hq]
  · simp only [if_neg hq]
    by_cases hc : (searchCandidates index query).isEmpty = true
    · simp [hc]
    · simp only [if_neg hc]
      obtain ⟨hmap, hties⟩ := ranked_eq_up_to_ties σ₁ σ₂ h₁ h₂
        (scoresPipeline index (tokenize query) (searchCandidates index query))
      constructor
      · rw [List.map_take, List.map_take, hmap]
      · intro hnt
        rw [hties hnt]

/-- Witness for C9 (amended) at the identity and reversal enumeration
orders on a concrete store. -/
theorem c9_witness :
    (searchWithState (fun l => l) wIdx ("a") 5).map Prod.snd =
      (searchWithState (fun l => l.reverse) wIdx ("a") 5).map Prod.snd :=
  (c9_search_deterministic_up_to_ties (fun l => l) (fun l => l.reverse)
    (fun l => List.Perm.refl l) (fun l => List.reverse_perm l) wIdx ("a") 5).1

/-- Document for the C9 counterexample. -/
def wDoc9 : DocMeta := ⟨"u", "", "a", 1⟩

/-- Store for the C9 counterexample: two bitwise-identical documents,
both matching the query `a` with exactly equal scores. -/
def wIdx9 : IndexStore :=
  ⟨[("a", [⟨0, 1, [0]⟩, ⟨1, 1, [1]⟩])], [wDoc9, wDoc9], 2⟩

/-- Score of document 0 for the query `a` in `wIdx9`. -/
noncomputable def ws0 : ℝ :=
  bm25PostingScore wIdx9 (idfOf wIdx9 [⟨0, 1, [0]⟩, ⟨1, 1, [1]⟩]) ⟨0, 1, [0]⟩

/-- Score of document 1 for the query `a` in `wIdx9`. -/
noncomputable def ws1 : ℝ :=
  bm25PostingScore wIdx9 (idfOf wIdx9 [⟨0, 1, [0]⟩, ⟨1, 1, [1]⟩]) ⟨1, 1, [1]⟩

theorem ws0_eq_ws1 : ws0 = ws1 := rfl

/-- Both enumeration orders used in the C9 counterexample are lawful:
each yields a permutation of the entries, as any `HashMap` enumeration
does. -/
theorem iterOrders_lawful :
    LawfulIterOrder (fun l => l) ∧ LawfulIterOrder (fun l => l.reverse) :=
  ⟨fun l => List.Perm.refl l, fun l => List.reverse_perm l⟩

theorem wIdx9_pipeline :
    scoresPipeline wIdx9 ["a"] [0, 1] = [(0, ws0), (1, ws1)] := rfl

theorem wIdx9_sorted1 :
    List.Pairwise (fun a b : Nat × ℝ => decide (b.2 ≤ a.2) = true)
      [(0, ws0), (1, ws1)] := by
  refine List.pairwise_cons.mpr ⟨?_, List.pairwise_singleton _ _⟩
  intro b hb
  rw [List.mem_singleton.mp hb]
  exact decide_eq_true (le_of_eq ws0_eq_ws1.symm)

theorem wIdx9_sorted2 :
    List.Pairwise (fun a b : Nat × ℝ => decide (b.2 ≤ a.2) = true)
      [(1, ws1), (0, ws0)] := by
  refine List.pairwise_cons.mpr ⟨?_, List.pairwise_singleton _ _⟩
  intro b hb
  rw [List.mem_singleton.mp hb]
  exact decide_eq_true (le_of_eq ws0_eq_ws1)

theorem wIdx9_res1 :
    searchWithState (fun l => l) wIdx9 ("a") 10 = [(0, ws0), (1, ws1)] := by
  have hstep : searchWithState (fun l => l) wIdx9 ("a") 10 =
      ((scoresPipeline wIdx9 ["a"] [0, 1]).mergeSort
        (fun a b => decide (b.2 ≤ a.2))).take 10 := rfl
  rw [hstep, wIdx9_pipeline, List.mergeSort_of_sorted wIdx9_sorted1]
  rfl

theorem wIdx9_res2 :
    searchWithState (fun l => l.reverse) wIdx9 ("a") 10 = [(1, ws1), (0, ws0)] := by
  have hstep : searchWithState (fun l => l.reverse) wIdx9 ("a") 10 =
      (((scoresPipeline wIdx9 ["a"] [0, 1]).reverse).mergeSort
        (fun a b => decide (b.2 ≤ a.2))).take 10 := rfl
  rw [hstep, wIdx9_pipeline,
    show ([(0, ws0), (1, ws1)] : List (Nat × ℝ)).reverse = [(1, ws1), (0, ws0)]
      from rfl,
    List.mergeSort_of_sorted wIdx9_sorted2]
  rfl

/-- Claim C9 (counterexample): on a store with two identical documents,
the two lawful enumeration orders of the tied score entries — both
realizable per call through the `HashMap`'s random hash seed — make
`search` return the tied pairs in different orders, so two calls need
not return identical result lists and the per-call `RandomState` is
hidden state that `search` reads. -/
theorem c9_counterexample :
    searchWithState (fun l => l) wIdx9 ("a") 10 ≠
      searchWithState (fun l => l.reverse) wIdx9 ("a") 10 := by
  rw [wIdx9_res1, wIdx9_res2]
  intro h
  have h2 := congrArg (fun r => r.map Prod.fst) h
  simp at h2

theorem if_lt_eq_min (d best : Nat) : (if d < best then d else best) = min best d := by
  rcases Nat.lt_or_ge d best with h | h
  · rw [if_pos h, Nat.min_def, if_neg (by omega)]
  · rw [if_neg (by omega), Nat.min_def, if_pos (by omega)]

/-- Behaviour of a fold of `min` over mapped values: the result is the
start or an attained value, is bounded by the start, and is bounded by
every mapped value. -/
theorem foldl_min_facts {β : Type} (g : β → Nat) (l : List β) :
    ∀ s : Nat,
      (l.foldl (fun acc x => min acc (g x)) s = s ∨
        ∃ x ∈ l, l.foldl (fun acc x => min acc (g x)) s = g x) ∧
      l.foldl (fun acc x => min acc (g x)) s ≤ s ∧
      ∀ x ∈ l, l.foldl (fun acc x => min acc (g x)) s ≤ g x := by
  induction l with
  | nil => intro s; exact ⟨Or.inl rfl, Nat.le_refl s, fun x hx => absurd hx (by simp)⟩
  | cons a l ih =>
      intro s
      rw [List.foldl_cons]
      obtain ⟨hach, hle, hall⟩ := ih (min s (g a))
      refine ⟨?_, le_trans hle (min_le_left _ _), ?_⟩
      · rcases hach with h | ⟨x, hx, hxe⟩
        · rcases Nat.le_total s (g a) with hsa | hsa
          · exact Or.inl (by rw [h]; exact min_eq_left hsa)
          · exact Or.inr ⟨a, List.mem_cons_self a l, by rw [h]; exact min_eq_right hsa⟩
        · exact Or.inr ⟨x, List.mem_cons_of_mem a hx, hxe⟩
      · intro x hx
        rcases List.mem_cons.mp hx with heq | hx'
        · rw [heq]; exact le_trans hle (min_le_right _ _)
        · exact hall x hx'

theorem bestPairDist_min_form (pos1 pos2 : List Nat) :
    bestPairDist pos1 pos2 =
      pos1.foldl (fun best a =>
        pos2.foldl (fun best b => min best (abs_diff a b)) best) USIZE_MAX := by
  unfold bestPairDist
  simp only [if_lt_eq_min]

/-- `bestPairDist` of two non-empty position lists, with all pairwise
differences representable in `usize`, attains the minimum of the
pairwise absolute differences. -/
theorem bestPairDist_is_min (pos1 pos2 : List Nat)
    (h1 : pos1 ≠ []) (h2 : pos2 ≠ [])
    (hb : ∀ a ∈ pos1, ∀ b ∈ pos2, abs_diff a b ≤ USIZE_MAX) :
    (∃ a ∈ pos1, ∃ b ∈ pos2, bestPairDist pos1 pos2 = abs_diff a b) ∧
      ∀ a ∈ pos1, ∀ b ∈ pos2, bestPairDist pos1 pos2 ≤ abs_diff a b := by
  rw [bestPairDist_min_form]
  have houter : ∀ (l1 : List Nat) (s : Nat),
      (l1.foldl (fun best a =>
        pos2.foldl (fun best b => min best (abs_diff a b)) best) s = s ∨
        ∃ a ∈ l1, ∃ b ∈ pos2,
          l1.foldl (fun best a =>
            pos2.foldl (fun best b => min best (abs_diff a b)) best) s =
            abs_diff a b) ∧
      l1.foldl (fun best a =>
        pos2.foldl (fun best b => min best (abs_diff a b)) best) s ≤ s ∧
      ∀ a ∈ l1, ∀ b ∈ pos2,
        l1.foldl (fun best a =>
          pos2.foldl (fun best b => min best (abs_diff a b)) best) s ≤
          abs_diff a b := by
    intro l1
    induction l1 with
    | nil => intro s; exact ⟨Or.inl rfl, Nat.le_refl s, fun x hx => absurd hx (by simp)⟩
    | cons a l ih =>
        intro s
        rw [List.foldl_cons]
        obtain ⟨iach, ile, iall⟩ := foldl_min_facts (fun b => abs_diff a b) pos2 s
        obtain ⟨hach, hle, hall⟩ :=
          ih (pos2.foldl (fun best b => min best (abs_diff a b)) s)
        refine ⟨?_, le_trans hle ile, ?_⟩
        · rcases hach with h | ⟨x, hx, b, hbmem, hxe⟩
          · rw [h]
            rcases iach with h' | ⟨b, hbmem, hbe⟩
            · exact Or.inl h'
            · exact Or.inr ⟨a, List.mem_cons_self a l, b, hbmem, hbe⟩
          · exact Or.inr ⟨x, List.mem_cons_of_mem a hx, b, hbmem, hxe⟩
        · intro x hx b hbmem
          rcases List.mem_cons.mp hx with heq | hx'
          · rw [heq]
            exact le_trans hle (iall b hbmem)
          · exact hall x hx' b hbmem
  obtain ⟨hach, hle, hall⟩ := houter pos1 USIZE_MAX
  refine ⟨?_, hall⟩
  rcases hach with h | hex
  · rcases List.exists_mem_of_ne_nil pos1 h1 with ⟨a, ha⟩
    rcases List.exists_mem_of_ne_nil pos2 h2 with ⟨b, hbm⟩
    refine ⟨a, ha, b, hbm, ?_⟩
    have h1' := hall a ha b hbm
    have h2' := hb a ha b hbm
    omega
  · exact hex

/-- The distances that claim C6 says are accumulated for document `d`:
one `bestPairDist` per adjacent query-term pair whose two terms both
have a posting in `d`. -/
def pairDistsOf (index : IndexStore) (d : Nat)
    (pairs : List (String × String)) : List Nat :=
  pairs.filterMap (fun pair =>
    match findPosting index pair.1 d, findPosting index pair.2 d with
    | some p1, some p2 => some (bestPairDist p1.positions p2.positions)
    | _, _ => none)

/-- The adjacent-pair distances of claim C6 for document `d`. -/
def proxPairDists (index : IndexStore) (qterms : List String) (d : Nat) : List Nat :=
  pairDistsOf index d (qterms.zip qterms.tail)

theorem proxFold_eq (index : IndexStore) (d : Nat) :
    ∀ (pairs : List (String × String)) (m : Nat) (b : Bool),
      pairs.foldl (fun acc pair =>
        match findPosting index pair.1 d, findPosting index pair.2 d with
        | some pos1, some pos2 =>
            ((acc.1 + bestPairDist pos1.positions pos2.positions) % 2 ^ 64, true)
        | _, _ => acc) (m, b) =
      ((pairDistsOf index d pairs).foldl (fun acc x => (acc + x) % 2 ^ 64) m,
        b || !(pairDistsOf index d pairs).isEmpty) := by
  intro pairs
  induction pairs with
  | nil => intro m b; simp [pairDistsOf]
  | cons pair rest ih =>
      intro m b
      rw [List.foldl_cons]
      cases hf1 : findPosting index pair.1 d with
      | none => simp only [pairDistsOf, List.filterMap_cons, hf1] at ih ⊢; exact ih m b
      | some p1 =>
          cases hf2 : findPosting index pair.2 d with
          | none =>
              simp only [pairDistsOf, List.filterMap_cons, hf1, hf2] at ih ⊢
              exact ih m b
          | some p2 =>
              simp only [pairDistsOf, List.filterMap_cons, hf1, hf2] at ih ⊢
              rw [ih ((m + bestPairDist p1.positions p2.positions) % 2 ^ 64) true]
              simp

theorem proxAccum_eq (index : IndexStore) (qterms : List String) (d : Nat) :
    proxAccum index qterms d =
      ((proxPairDists index qterms d).foldl (fun acc x => (acc + x) % 2 ^ 64) 0,
        !(proxPairDists index qterms d).isEmpty) := by
  unfold proxAccum proxPairDists
  rw [proxFold_eq index d (qterms.zip qterms.tail) 0 false]
  simp

theorem modFold_eq_sum :
    ∀ (l : List Nat) (m : Nat), m + l.sum < 2 ^ 64 →
      l.foldl (fun acc x => (acc + x) % 2 ^ 64) m = m + l.sum := by
  intro l
  induction l with
  | nil => intro m _; simp
  | cons x l ih =>
      intro m hm
      rw [List.foldl_cons]
      have hx : (m + x) % 2 ^ 64 = m + x := by
        apply Nat.mod_eq_of_lt
        simp only [List.sum_cons] at hm
        omega
      rw [hx, ih (m + x) (by simp only [List.sum_cons] at hm; omega)]
      simp only [List.sum_cons]
      omega

theorem proxStep_get (index : IndexStore) (qterms : List String)
    (sc : List (Nat × ℝ)) (c d : Nat) :
    scoresGet (proxStep index qterms sc c) d =
      scoresGet sc d +
        if d = c then
          (if (proxAccum index qterms c).2 then
            proxBoost qterms.length (proxAccum index qterms c).1
          else 0)
        else 0 := by
  simp only [proxStep]
  by_cases hf : (proxAccum index qterms c).2 = true
  · rw [if_pos hf, scoresGet_addScore]
    simp only [hf, if_true]
  · rw [if_neg hf]
    rw [Bool.not_eq_true] at hf
    simp only [hf, Bool.false_eq_true, if_false]
    by_cases h : d = c <;> simp [h]

/-- Claim C6: the proximity boost runs only for queries of at least two
terms; for a candidate document it sums, over adjacent query-term pairs
with both terms present in the document, the minimum absolute position
difference of the two postings (pairs with an absent term contribute
nothing), and adds 5.0 / 2.5 / 1.0 / 0.0 according to the claimed bands
on that total (exact provided the total fits in `usize`). -/
theorem c6_proximity_boost (index : IndexStore) (qterms : List String)
    (candidates : List Nat) (scores : List (Nat × ℝ)) (d : Nat) :
    (qterms.length < 2 →
      apply_proximity_boost index qterms candidates scores = scores) ∧
      (2 ≤ qterms.length → candidates.Nodup → d ∈ candidates →
        (proxPairDists index qterms d).sum < 2 ^ 64 →
        scoresGet (apply_proximity_boost index qterms candidates scores) d =
          scoresGet scores d +
            (if proxPairDists index qterms d = [] then 0.0
            else if (proxPairDists index qterms d).sum ≤ qterms.length - 1 then 5.0
            else if (proxPairDists index qterms d).sum ≤
                2 * (qterms.length - 1) then 2.5
            else if (proxPairDists index qterms d).sum ≤
                5 * (qterms.length - 1) then 1.0
            else 0.0)) ∧
      (∀ pos1 pos2 : List Nat, pos1 ≠ [] → pos2 ≠ [] →
        (∀ a ∈ pos1, ∀ b ∈ pos2, abs_diff a b ≤ USIZE_MAX) →
        (∃ a ∈ pos1, ∃ b ∈ pos2, bestPairDist pos1 pos2 = abs_diff a b) ∧
          ∀ a ∈ pos1, ∀ b ∈ pos2, bestPairDist pos1 pos2 ≤ abs_diff a b) := by
  refine ⟨?_, ?_, fun pos1 pos2 h1 h2 hb => bestPairDist_is_min pos1 pos2 h1 h2 hb⟩
  · intro hlt
    unfold apply_proximity_boost
    rw [if_pos hlt]
  · intro hlen hnd hd hsum
    unfold apply_proximity_boost
    rw [if_neg (by omega)]
    rw [scoresGet_foldl (fun c => c)
        (fun c => if (proxAccum index qterms c).2 then
          proxBoost qterms.length (proxAccum index qterms c).1 else 0)
        (proxStep index qterms) (proxStep_get index qterms) candidates scores d]
    show scoresGet scores d + ((candidates.filter (fun a => a == d)).map
        (fun c => if (proxAccum index qterms c).2 then
          proxBoost qterms.length (proxAccum index qterms c).1 else 0)).sum = _
    rw [sum_filter_single _ candidates d hnd hd]
    rw [proxAccum_eq]
    dsimp only
    rw [modFold_eq_sum _ 0 (by omega), Nat.zero_add]
    by_cases hemp : proxPairDists index qterms d = []
    · rw [if_pos hemp, hemp]
      norm_num
    · rw [if_neg hemp]
      have hne : (proxPairDists index qterms d).isEmpty = false := by
        cases hpl : proxPairDists index qterms d with
        | nil => exact absurd hpl hemp
        | cons x xs => rfl
      rw [hne]
      simp only [Bool.not_false, if_true]
      unfold proxBoost
      rw [Nat.mul_comm (qterms.length - 1) 2, Nat.mul_comm (qterms.length - 1) 5]

/-- Witness for C6: a one-term query is left alone; a two-term query on
a document containing both terms adjacently gets the banded boost; and
`bestPairDist` is bounded by an attained difference. -/
theorem c6_witness :
    apply_proximity_boost wIdx2 ["a"] [0] [] = [] ∧
      scoresGet (apply_proximity_boost wIdx2 ["a", "b"] [0] []) 0 =
        scoresGet [] 0 +
          (if proxPairDists wIdx2 ["a", "b"] 0 = [] then 0.0
          else if (proxPairDists wIdx2 ["a", "b"] 0).sum ≤
              (["a", "b"] : List String).length - 1 then 5.0
          else if (proxPairDists wIdx2 ["a", "b"] 0).sum ≤
              2 * ((["a", "b"] : List String).length - 1) then 2.5
          else if (proxPairDists wIdx2 ["a", "b"] 0).sum ≤
              5 * ((["a", "b"] : List String).length - 1) then 1.0
          else 0.0) ∧
      bestPairDist [0] [1] ≤ abs_diff 0 1 :=
  ⟨(c6_proximity_boost wIdx2 ["a"] [0] [] 0).1 (by decide),
    (c6_proximity_boost wIdx2 ["a", "b"] [0] [] 0).2.1 (by decide) (by decide)
      (by decide) (by decide),
    ((c6_proximity_boost wIdx2 ["a", "b"] [0] [] 0).2.2 [0] [1] (by decide)
      (by decide) (by decide)).2 0 (by decide) 1 (by decide)⟩

/-- The candidate score of claim C8, `s = −3·d + ln(df + 1)`, read
through the dictionary. -/
noncomputable def suggestSpecScore (index : IndexStore) (token : String)
    (t : String) : ℝ :=
  match dictGet index.dict t with
  | none => 0
  | some ps =>
      -3 * (damerau_levenshtein t token : ℝ) + Real.log ((ps.length : ℝ) + 1)

theorem suggestScore_spelled (token t : String) (ps : List Posting) :
    suggestScore token t ps =
      -3 * (damerau_levenshtein t token : ℝ) + Real.log ((ps.length : ℝ) + 1) := by
  unfold suggestScore
  norm_num
  ring

theorem dictGet_of_mem (dict : List (String × List Posting))
    (hk : (dict.map Prod.fst).Nodup) (e : String × List Posting) (he : e ∈ dict) :
    dictGet dict e.1 = some e.2 := by
  induction dict with
  | nil => cases he
  | cons a l ih =>
      rcases List.mem_cons.mp he with heq | hmem
      · subst heq
        unfold dictGet
        rw [List.find?_cons_of_pos _ (by simp)]
        rfl
      · have hne : (a.1 == e.1) = false := by
          simp only [beq_eq_false_iff_ne]
          intro hc
          exact (List.nodup_cons.mp hk).1
            (hc ▸ List.mem_map_of_mem Prod.fst hmem)
        unfold dictGet
        have hskip : List.find? (fun x => x.1 == e.1) (a :: l) =
            List.find? (fun x => x.1 == e.1) l := by
          simp only [List.find?, hne]
        rw [hskip]
        exact ih (List.nodup_cons.mp hk).2 hmem

theorem mem_of_dictGet (dict : List (String × List Posting)) (t : String)
    (ps : List Posting) (h : dictGet dict t = some ps) :
    ∃ e ∈ dict, e.1 = t ∧ e.2 = ps := by
  unfold dictGet at h
  rcases Option.map_eq_some'.mp h with ⟨e, hfind, hsnd⟩
  refine ⟨e, List.mem_of_find?_eq_some hfind, ?_, hsnd⟩
  have hp := List.find?_some hfind
  simpa using hp

theorem mem_suggestCands (index : IndexStore) (token : String) (max_dist : Nat)
    (hk : (index.dict.map Prod.fst).Nodup) :
    ∀ pr ∈ suggestCands index token max_dist,
      damerau_levenshtein pr.1 token ≤ max_dist ∧
        dictGet index.dict pr.1 ≠ none ∧
        pr.2 = suggestSpecScore index token pr.1 := by
  intro pr hpr
  rcases List.mem_filterMap.mp hpr with ⟨e, he, hfe⟩
  by_cases hdist : damerau_levenshtein e.1 token ≤ max_dist
  · rw [if_pos hdist] at hfe
    have hpr' := Option.some.inj hfe
    rw [← hpr']
    have hget := dictGet_of_mem index.dict hk e he
    refine ⟨hdist, by rw [hget]; simp, ?_⟩
    show suggestScore token e.1 e.2 = suggestSpecScore index token e.1
    unfold suggestSpecScore
    rw [hget, suggestScore_spelled]
  · rw [if_neg hdist] at hfe
    cases hfe

theorem qualifying_mem_cands (index : IndexStore) (token : String) (max_dist : Nat)
    (t : String) (ps : List Posting)
    (hget : dictGet index.dict t = some ps)
    (hdist : damerau_levenshtein t token ≤ max_dist) :
    (t, suggestScore token t ps) ∈ suggestCands index token max_dist := by
  rcases mem_of_dictGet index.dict t ps hget with ⟨e, he, h1, h2⟩
  apply List.mem_filterMap.mpr
  refine ⟨e, he, ?_⟩
  rw [h1, h2, if_pos hdist]

theorem suggestSpecScore_of_get (index : IndexStore) (token t : String)
    (ps : List Posting) (hget : dictGet index.dict t = some ps) :
    suggestSpecScore index token t = suggestScore token t ps := by
  unfold suggestSpecScore
  rw [hget, suggestScore_spelled]

/-- Claim C8: `suggest_terms` returns at most `max_suggestions` terms;
every returned term is a dictionary key within `max_dist` of the token;
the returned terms are sorted by the claim's score `−3·d + ln(df + 1)`
descending; and no qualifying dictionary term left out scores strictly
above any returned term (the returned terms are the top ones). -/
theorem c8_suggest_terms (index : IndexStore) (token : String)
    (max_dist max_suggestions : Nat)
    (hk : (index.dict.map Prod.fst).Nodup) :
    (suggest_terms index token max_dist max_suggestions).length ≤ max_suggestions ∧
      (∀ t ∈ suggest_terms index token max_dist max_suggestions,
        dictGet index.dict t ≠ none ∧ damerau_levenshtein t token ≤ max_dist) ∧
      (suggest_terms index token max_dist max_suggestions).Pairwise
        (fun t u => suggestSpecScore index token u ≤ suggestSpecScore index token t) ∧
      (∀ (t : String) (ps : List Posting), dictGet index.dict t = some ps →
        damerau_levenshtein t token ≤ max_dist →
        t ∉ suggest_terms index token max_dist max_suggestions →
        ∀ u ∈ suggest_terms index token max_dist max_suggestions,
          suggestSpecScore index token t ≤ suggestSpecScore index token u) := by
  have htrans : ∀ a b c : String × ℝ,
      (fun a b : String × ℝ => decide (b.2 ≤ a.2)) a b →
      (fun a b : String × ℝ => decide (b.2 ≤ a.2)) b c →
      (fun a b : String × ℝ => decide (b.2 ≤ a.2)) a c := by
    intro a b c h1 h2
    exact decide_eq_true
      (le_trans (of_decide_eq_true h2) (of_decide_eq_true h1))
  have htotal : ∀ a b : String × ℝ,
      ((fun a b : String × ℝ => decide (b.2 ≤ a.2)) a b ||
        (fun a b : String × ℝ => decide (b.2 ≤ a.2)) b a) = true := by
    intro a b
    rcases le_total a.2 b.2 with h | h <;> simp [h]
  have hsorted := List.sorted_mergeSort htrans htotal
    (suggestCands index token max_dist)
  have hcands := mem_suggestCands index token max_dist hk
  refine ⟨?_, ?_, ?_, ?_⟩
  · unfold suggest_terms
    rw [List.length_map, List.length_take]
    exact min_le_left _ _
  · intro t ht
    rcases List.mem_map.mp ht with ⟨pr, hpr, rfl⟩
    have hmem : pr ∈ suggestCands index token max_dist :=
      List.mem_mergeSort.mp (List.mem_of_mem_take hpr)
    exact ⟨(hcands pr hmem).2.1, (hcands pr hmem).1⟩
  · apply List.pairwise_map.mpr
    have hspec : (((suggestCands index token max_dist).mergeSort
        (fun a b => decide (b.2 ≤ a.2))).take max_suggestions).Pairwise
        (fun a b : String × ℝ =>
          suggestSpecScore index token b.1 ≤ suggestSpecScore index token a.1) := by
      apply List.Pairwise.sublist (List.take_sublist _ _)
      apply List.Pairwise.imp_of_mem ?_ hsorted
      intro a b ha hb hab
      have h2 : b.2 ≤ a.2 := of_decide_eq_true hab
      rw [← (hcands a (List.mem_mergeSort.mp ha)).2.2,
        ← (hcands b (List.mem_mergeSort.mp hb)).2.2]
      exact h2
    exact hspec
  · intro t ps hget hdist hnot u hu
    have hpair : (t, suggestScore token t ps) ∈
        (suggestCands index token max_dist).mergeSort
          (fun a b => decide (b.2 ≤ a.2)) :=
      List.mem_mergeSort.mpr (qualifying_mem_cands index token max_dist t ps hget hdist)
    have hnottake : (t, suggestScore token t ps) ∉
        ((suggestCands index token max_dist).mergeSort
          (fun a b => decide (b.2 ≤ a.2))).take max_suggestions := by
      intro hc
      exact hnot (List.mem_map_of_mem (fun e => e.1) hc)
    have hdrop : (t, suggestScore token t ps) ∈
        ((suggestCands index token max_dist).mergeSort
          (fun a b => decide (b.2 ≤ a.2))).drop max_suggestions := by
      have hsplit := List.take_append_drop max_suggestions
        ((suggestCands index token max_dist).mergeSort
          (fun a b => decide (b.2 ≤ a.2)))
      rcases List.mem_append.mp (by rw [hsplit]; exact hpair) with h | h
      · exact absurd h hnottake
      · exact h
    rcases List.mem_map.mp hu with ⟨pu, hpu, rfl⟩
    have happ : (((suggestCands index token max_dist).mergeSort
        (fun a b => decide (b.2 ≤ a.2))).take max_suggestions ++
        ((suggestCands index token max_dist).mergeSort
          (fun a b => decide (b.2 ≤ a.2))).drop max_suggestions).Pairwise
        (fun a b : String × ℝ => decide (b.2 ≤ a.2)) := by
      rw [List.take_append_drop]
      exact hsorted
    have hrel := (List.pairwise_append.mp happ).2.2 pu hpu
      (t, suggestScore token t ps) hdrop
    have hle : suggestScore token t ps ≤ pu.2 := of_decide_eq_true hrel
    rw [suggestSpecScore_of_get index token t ps hget,
      ← (hcands pu (List.mem_mergeSort.mp (List.mem_of_mem_take hpu))).2.2]
    exact hle

/-- Witness for C8 at a concrete two-term store. -/
theorem c8_witness : (suggest_terms wIdx2 ("a") 1 1).length ≤ 1 :=
  (c8_suggest_terms wIdx2 ("a") 1 1 (by decide)).1

/-- Abstract serialization token.  `IndexStore::save`/`load`
(`src/indexer.rs` lines 41–53) delegate to `bincode`, whose default
format writes a struct as its fields in declaration order, a `Vec` or
`HashMap` as a length followed by its elements, an integer as a
fixed-width little-endian word and a `String` as a length-prefixed
UTF-8 byte run; that byte level is abstracted into one token per
integer and one per string. -/
inductive Tok where
  | nat (n : Nat)
  | str (s : String)
deriving DecidableEq

/-- Serialize one integer. -/
def encNat (n : Nat) : List Tok := [Tok.nat n]

/-- Serialize one string. -/
def encStr (s : String) : List Tok := [Tok.str s]

/-- Serialize a sequence: its length, then its elements in order. -/
def encList {α : Type} (enc : α → List Tok) (l : List α) : List Tok :=
  encNat l.length ++ (l.map enc).flatten

/-- Serialize a `Posting` (fields in declaration order). -/
def encPosting (p : Posting) : List Tok :=
  encNat p.doc_id ++ encNat p.tf ++ encList encNat p.positions

/-- Serialize a `DocMeta` (fields in declaration order). -/
def encDocMeta (m : DocMeta) : List Tok :=
  encStr m.url ++ encStr m.title ++ encStr m.body ++ encNat m.length

/-- Serialize one dictionary entry. -/
def encEntry (e : String × List Posting) : List Tok :=
  encStr e.1 ++ encList encPosting e.2

/-- `IndexStore::save` (`src/indexer.rs` lines 41–46): serialize
`dict`, `docs`, `doc_count` in order. -/
def save (s : IndexStore) : List Tok :=
  encList encEntry s.dict ++ encList encDocMeta s.docs ++ encNat s.doc_count

/-- Parse one integer. -/
def decNat : List Tok → Option (Nat × List Tok)
  | Tok.nat n :: rest => some (n, rest)
  | _ => none

/-- Parse one string. -/
def decStr : List Tok → Option (String × List Tok)
  | Tok.str s :: rest => some (s, rest)
  | _ => none

/-- Parse `n` consecutive elements. -/
def decListAux {α : Type} (dec : List Tok → Option (α × List Tok)) :
    Nat → List Tok → Option (List α × List Tok)
  | 0, toks => some ([], toks)
  | n + 1, toks =>
      match dec toks with
      | none => none
      | some (x, rest) =>
          match decListAux dec n rest with
          | none => none
          | some (xs, rest2) => some (x :: xs, rest2)

/-- Parse a length-prefixed sequence. -/
def decList {α : Type} (dec : List Tok → Option (α × List Tok))
    (toks : List Tok) : Option (List α × List Tok) :=
  match decNat toks with
  | none => none
  | some (n, rest) => decListAux dec n rest

/-- Parse a `Posting`. -/
def decPosting (toks : List Tok) : Option (Posting × List Tok) :=
  match decNat toks with
  | none => none
  | some (doc_id, r1) =>
      match decNat r1 with
      | none => none
      | some (tf, r2) =>
          match decList decNat r2 with
          | none => none
          | some (positions, r3) => some (⟨doc_id, tf, positions⟩, r3)

/-- Parse a `DocMeta`. -/
def decDocMeta (toks : List Tok) : Option (DocMeta × List Tok) :=
  match decStr toks with
  | none => none
  | some (url, r1) =>
      match decStr r1 with
      | none => none
      | some (title, r2) =>
          match decStr r2 with
          | none => none
          | some (body, r3) =>
              match decNat r3 with
              | none => none
              | some (len, r4) => some (⟨url, title, body, len⟩, r4)

/-- Parse one dictionary entry. -/
def decEntry (toks : List Tok) : Option ((String × List Posting) × List Tok) :=
  match decStr toks with
  | none => none
  | some (t, r1) =>
      match decList decPosting r1 with
      | none => none
      | some (ps, r2) => some ((t, ps), r2)

/-- `IndexStore::load` (`src/indexer.rs` lines 48–53): the inverse
parse; a blob that cannot be decoded is a corrupt-store error
(`none`). -/
def load (toks : List Tok) : Option IndexStore :=
  match decList decEntry toks with
  | none => none
  | some (dict, r1) =>
      match decList decDocMeta r1 with
      | none => none
      | some (docs, r2) =>
          match decNat r2 with
          | none => none
          | some (n, _) => some ⟨dict, docs, n⟩

theorem decNat_enc (n : Nat) (rest : List Tok) :
    decNat (encNat n ++ rest) = some (n, rest) := rfl

theorem decStr_enc (s : String) (rest : List Tok) :
    decStr (encStr s ++ rest) = some (s, rest) := rfl

theorem decListAux_enc {α : Type} (dec : List Tok → Option (α × List Tok))
    (enc : α → List Tok)
    (henc : ∀ (x : α) (rest : List Tok), dec (enc x ++ rest) = some (x, rest)) :
    ∀ (l : List α) (rest : List Tok),
      decListAux dec l.length ((l.map enc).flatten ++ rest) = some (l, rest) := by
  intro l
  induction l with
  | nil => intro rest; rfl
  | cons x xs ih =>
      intro rest
      show decListAux dec (xs.length + 1)
        (((x :: xs).map enc).flatten ++ rest) = some (x :: xs, rest)
      have hj : ((x :: xs).map enc).flatten ++ rest =
          enc x ++ ((xs.map enc).flatten ++ rest) := by
        simp [List.append_assoc]
      rw [hj]
      simp only [decListAux, henc, ih]

theorem decList_enc {α : Type} (dec : List Tok → Option (α × List Tok))
    (enc : α → List Tok)
    (henc : ∀ (x : α) (rest : List Tok), dec (enc x ++ rest) = some (x, rest))
    (l : List α) (rest : List Tok) :
    decList dec (encList enc l ++ rest) = some (l, rest) := by
  unfold decList encList
  rw [List.append_assoc, decNat_enc]
  exact decListAux_enc dec enc henc l rest

theorem decNat_single (n : Nat) : decNat (encNat n) = some (n, []) := rfl

theorem decPosting_enc (p : Posting) (rest : List Tok) :
    decPosting (encPosting p ++ rest) = some (p, rest) := by
  unfold decPosting encPosting
  simp only [List.append_assoc, decNat_enc,
    decList_enc decNat encNat decNat_enc]

theorem decDocMeta_enc (m : DocMeta) (rest : List Tok) :
    decDocMeta (encDocMeta m ++ rest) = some (m, rest) := by
  unfold decDocMeta encDocMeta
  simp only [List.append_assoc, decStr_enc, decNat_enc]

theorem decEntry_enc (e : String × List Posting) (rest : List Tok) :
    decEntry (encEntry e ++ rest) = some (e, rest) := by
  unfold decEntry encEntry
  simp only [List.append_assoc, decStr_enc,
    decList_enc decPosting encPosting decPosting_enc]

/-- Claim C5: for every `IndexStore` the serialized form reads back as a
structurally equal store: `load (save s) = some s`. -/
theorem c5_round_trip (s : IndexStore) : load (save s) = some s := by
  unfold load save
  simp only [List.append_assoc, decList_enc decEntry encEntry decEntry_enc,
    decList_enc decDocMeta encDocMeta decDocMeta_enc, decNat_single]

/-- `Page` (`src/parser.rs` lines 4–8). -/
structure Page where
  url : String
  title : String
  body : String

/-- `map.entry(t).or_default().push(x)` on an association-list model of
a `HashMap<String, Vec<_>>`: append `x` to the first entry with key `t`,
or append a new `(t, [x])` entry. -/
def entryPush {β : Type} : List (String × List β) → String → β → List (String × List β)
  | [], t, x => [(t, [x])]
  | e :: rest, t, x =>
      if e.1 = t then (e.1, e.2 ++ [x]) :: rest else e :: entryPush rest t x

/-- Lookup of an entry's value list (empty when the key is absent). -/
def entryGet {β : Type} : List (String × List β) → String → List β
  | [], _ => []
  | e :: rest, t => if e.1 = t then e.2 else entryGet rest t

/-- Sum of `f` over all values of all entries. -/
def sumVals {β : Type} (f : β → Nat) (m : List (String × List β)) : Nat :=
  (m.map (fun e => (e.2.map f).sum)).sum

theorem entryGet_push {β : Type} (m : List (String × List β)) (t s : String) (x : β) :
    entryGet (entryPush m t x) s =
      if s = t then entryGet m s ++ [x] else entryGet m s := by
  induction m with
  | nil =>
      by_cases h : s = t
      · simp [entryPush, entryGet, h]
      · have hts : ¬ t = s := fun hc => h hc.symm
        simp [entryPush, entryGet, h, hts]
  | cons e rest ih =>
      by_cases het : e.1 = t
      · rw [show entryPush (e :: rest) t x = (e.1, e.2 ++ [x]) :: rest from by
          simp [entryPush, het]]
        by_cases hst : s = t
        · have hes : e.1 = s := het.trans hst.symm
          simp [entryGet, hes, hst]
        · have hes : ¬ e.1 = s := fun hc => hst (hc.symm.trans het)
          simp [entryGet, hes, hst]
      · rw [show entryPush (e :: rest) t x = e :: entryPush rest t x from by
          simp [entryPush, het]]
        by_cases hes : e.1 = s
        · have hst : ¬ s = t := fun hc => het (hes.trans hc)
          simp [entryGet, hes, hst]
        · simp [entryGet, hes, ih]

/-- Every entry of `entryPush m t x` is an old entry or the updated
entry at key `t`. -/
theorem mem_entryPush {β : Type} (m : List (String × List β)) (t : String) (x : β) :
    ∀ e ∈ entryPush m t x, e ∈ m ∨ e = (t, entryGet m t ++ [x]) := by
  induction m with
  | nil =>
      intro e he
      rcases List.mem_singleton.mp he with rfl
      exact Or.inr rfl
  | cons hd rest ih =>
      intro e he
      by_cases hht : hd.1 = t
      · rw [show entryPush (hd :: rest) t x = (hd.1, hd.2 ++ [x]) :: rest from by
          simp [entryPush, hht]] at he
        rcases List.mem_cons.mp he with heq | hmem
        · right
          rw [heq, hht]
          have : entryGet (hd :: rest) t = hd.2 := by simp [entryGet, hht]
          rw [this]
        · exact Or.inl (List.mem_cons_of_mem hd hmem)
      · rw [show entryPush (hd :: rest) t x = hd :: entryPush rest t x from by
          simp [entryPush, hht]] at he
        rcases List.mem_cons.mp he with heq | hmem
        · exact Or.inl (heq ▸ List.mem_cons_self hd rest)
        · rcases ih e hmem with h | h
          · exact Or.inl (List.mem_cons_of_mem hd h)
          · right
            rw [h]
            have : entryGet (hd :: rest) t = entryGet rest t := by
              simp [entryGet, hht]
            rw [this]

theorem keys_entryPush {β : Type} (m : List (String × List β)) (t : String) (x : β) :
    (entryPush m t x).map Prod.fst =
      if t ∈ m.map Prod.fst then m.map Prod.fst else m.map Prod.fst ++ [t] := by
  induction m with
  | nil => simp [entryPush]
  | cons e rest ih =>
      by_cases het : e.1 = t
      · rw [show entryPush (e :: rest) t x = (e.1, e.2 ++ [x]) :: rest from by
          simp [entryPush, het]]
        simp [het]
      · rw [show entryPush (e :: rest) t x = e :: entryPush rest t x from by
          simp [entryPush, het]]
        by_cases hmem : t ∈ rest.map Prod.fst
        · simp [ih, hmem]
        · have hmem2 : ¬ t ∈ e.1 :: rest.map Prod.fst := by
            intro hc
            rcases List.mem_cons.mp hc with hc1 | hc2
            · exact het hc1.symm
            · exact hmem hc2
          rw [List.map_cons, List.map_cons, ih, if_neg hmem, if_neg hmem2,
            List.cons_append]

theorem nodup_keys_entryPush {β : Type} (m : List (String × List β)) (t : String)
    (x : β) (h : (m.map Prod.fst).Nodup) :
    ((entryPush m t x).map Prod.fst).Nodup := by
  rw [keys_entryPush]
  by_cases hmem : t ∈ m.map Prod.fst
  · rwa [if_pos hmem]
  · rw [if_neg hmem]
    rw [List.nodup_append]
    refine ⟨h, List.nodup_singleton t, ?_⟩
    intro a ha hc
    rw [List.mem_singleton] at hc
    exact hmem (hc ▸ ha)

theorem sumVals_entryPush {β : Type} (f : β → Nat) (m : List (String × List β))
    (t : String) (x : β) :
    sumVals f (entryPush m t x) = sumVals f m + f x := by
  induction m with
  | nil => simp [entryPush, sumVals]
  | cons e rest ih =>
      by_cases het : e.1 = t
      · rw [show entryPush (e :: rest) t x = (e.1, e.2 ++ [x]) :: rest from by
          simp [entryPush, het]]
        simp [sumVals]
        omega
      · rw [show entryPush (e :: rest) t x = e :: entryPush rest t x from by
          simp [entryPush, het]]
        simp [sumVals] at ih ⊢
        omega

/-- With duplicate-free keys, an entry's value list is its key's lookup. -/
theorem entryGet_of_mem {β : Type} (m : List (String × List β))
    (hk : (m.map Prod.fst).Nodup) (e : String × List β) (he : e ∈ m) :
    entryGet m e.1 = e.2 := by
  induction m with
  | nil => cases he
  | cons a rest ih =>
      rcases List.mem_cons.mp he with heq | hmem
      · rw [heq]
        simp [entryGet]
      · have hne : ¬ a.1 = e.1 := by
          intro hc
          exact (List.nodup_cons.mp hk).1 (hc ▸ List.mem_map_of_mem Prod.fst hmem)
        rw [show entryGet (a :: rest) e.1 = entryGet rest e.1 from by
          simp [entryGet, hne]]
        exact ih (List.nodup_cons.mp hk).2 hmem

/-- The looked-up values are the values of some entry with that key. -/
theorem entryGet_cases {β : Type} (m : List (String × List β)) (t : String) :
    entryGet m t = [] ∨ ∃ e ∈ m, e.1 = t ∧ entryGet m t = e.2 := by
  induction m with
  | nil => exact Or.inl rfl
  | cons a rest ih =>
      by_cases h : a.1 = t
      · right
        exact ⟨a, List.mem_cons_self a rest, h, by simp [entryGet, h]⟩
      · rw [show entryGet (a :: rest) t = entryGet rest t from by simp [entryGet, h]]
        rcases ih with h' | ⟨e, he, h1, h2⟩
        · exact Or.inl h'
        · exact Or.inr ⟨e, List.mem_cons_of_mem a he, h1, h2⟩

/-- Total number of recorded values. -/
def totalLen {β : Type} (m : List (String × List β)) : Nat :=
  (m.map (fun e => e.2.length)).sum

theorem totalLen_entryPush {β : Type} (m : List (String × List β)) (t : String)
    (x : β) : totalLen (entryPush m t x) = totalLen m + 1 := by
  induction m with
  | nil => simp [entryPush, totalLen]
  | cons e rest ih =>
      by_cases het : e.1 = t
      · rw [show entryPush (e :: rest) t x = (e.1, e.2 ++ [x]) :: rest from by
          simp [entryPush, het]]
        simp [totalLen]
        omega
      · rw [show entryPush (e :: rest) t x = e :: entryPush rest t x from by
          simp [entryPush, het]]
        simp [totalLen] at ih ⊢
        omega

/-- The position-recording loop (`src/indexer.rs` lines 85–87); the
counter is the `enumerate` index over the concatenated token stream. -/
def buildPosMapGo : Nat → List String → List (String × List Nat) →
    List (String × List Nat)
  | _, [], m => m
  | pos, term :: rest, m => buildPosMapGo (pos + 1) rest (entryPush m term pos)

/-- `pos_map` of one document (`src/indexer.rs` lines 84–87). -/
def buildPosMap (tokens : List String) : List (String × List Nat) :=
  buildPosMapGo 0 tokens []

/-- The positions (counted from `pos`) at which `t` occurs in `toks`. -/
def occPositions : Nat → List String → String → List Nat
  | _, [], _ => []
  | pos, term :: rest, t =>
      if term = t then pos :: occPositions (pos + 1) rest t
      else occPositions (pos + 1) rest t

theorem occPositions_lb :
    ∀ (toks : List String) (pos : Nat) (t : String),
      ∀ j ∈ occPositions pos toks t, pos ≤ j := by
  intro toks
  induction toks with
  | nil => intro pos t j hj; cases hj
  | cons term rest ih =>
      intro pos t j hj
      by_cases h : term = t
      · rw [show occPositions pos (term :: rest) t =
            pos :: occPositions (pos + 1) rest t from by simp [occPositions, h]] at hj
        rcases List.mem_cons.mp hj with heq | hj'
        · exact heq ▸ Nat.le_refl _
        · exact Nat.le_of_succ_le (ih (pos + 1) t j hj')
      · rw [show occPositions pos (term :: rest) t =
            occPositions (pos + 1) rest t from by simp [occPositions, h]] at hj
        exact Nat.le_of_succ_le (ih (pos + 1) t j hj)

theorem occPositions_pairwise :
    ∀ (toks : List String) (pos : Nat) (t : String),
      (occPositions pos toks t).Pairwise (· < ·) := by
  intro toks
  induction toks with
  | nil => intro pos t; exact List.Pairwise.nil
  | cons term rest ih =>
      intro pos t
      by_cases h : term = t
      · rw [show occPositions pos (term :: rest) t =
            pos :: occPositions (pos + 1) rest t from by simp [occPositions, h]]
        refine List.pairwise_cons.mpr ⟨?_, ih (pos + 1) t⟩
        intro j hj
        exact Nat.lt_of_lt_of_le (Nat.lt_succ_self pos)
          (occPositions_lb rest (pos + 1) t j hj)
      · rw [show occPositions pos (term :: rest) t =
            occPositions (pos + 1) rest t from by simp [occPositions, h]]
        exact ih (pos + 1) t

theorem buildPosMapGo_get :
    ∀ (toks : List String) (pos : Nat) (m : List (String × List Nat)) (t : String),
      entryGet (buildPosMapGo pos toks m) t =
        entryGet m t ++ occPositions pos toks t := by
  intro toks
  induction toks with
  | nil => intro pos m t; simp [buildPosMapGo, occPositions]
  | cons term rest ih =>
      intro pos m t
      show entryGet (buildPosMapGo (pos + 1) rest (entryPush m term pos)) t = _
      rw [ih (pos + 1) (entryPush m term pos) t, entryGet_push]
      by_cases h : t = term
      · rw [if_pos h, show occPositions pos (term :: rest) t =
            pos :: occPositions (pos + 1) rest t from by simp [occPositions, h.symm]]
        simp
      · have hts : ¬ term = t := fun hc => h hc.symm
        rw [if_neg h, show occPositions pos (term :: rest) t =
            occPositions (pos + 1) rest t from by simp [occPositions, hts]]

theorem buildPosMapGo_keys_nodup :
    ∀ (toks : List String) (pos : Nat) (m : List (String × List Nat)),
      (m.map Prod.fst).Nodup → ((buildPosMapGo pos toks m).map Prod.fst).Nodup := by
  intro toks
  induction toks with
  | nil => intro pos m h; exact h
  | cons term rest ih =>
      intro pos m h
      exact ih (pos + 1) (entryPush m term pos) (nodup_keys_entryPush m term pos h)

theorem buildPosMapGo_totalLen :
    ∀ (toks : List String) (pos : Nat) (m : List (String × List Nat)),
      totalLen (buildPosMapGo pos toks m) = totalLen m + toks.length := by
  intro toks
  induction toks with
  | nil => intro pos m; simp [buildPosMapGo]
  | cons term rest ih =>
      intro pos m
      show totalLen (buildPosMapGo (pos + 1) rest (entryPush m term pos)) = _
      rw [ih (pos + 1) (entryPush m term pos), totalLen_entryPush]
      simp
      omega

theorem buildPosMap_keys_nodup (toks : List String) :
    ((buildPosMap toks).map Prod.fst).Nodup :=
  buildPosMapGo_keys_nodup toks 0 [] (by simp)

theorem buildPosMap_pairwise (toks : List String) :
    ∀ e ∈ buildPosMap toks, e.2.Pairwise (· < ·) := by
  intro e he
  have h1 := entryGet_of_mem _ (buildPosMap_keys_nodup toks) e he
  have h2 : entryGet (buildPosMap toks) e.1 =
      entryGet ([] : List (String × List Nat)) e.1 ++ occPositions 0 toks e.1 :=
    buildPosMapGo_get toks 0 [] e.1
  rw [h1, show entryGet ([] : List (String × List Nat)) e.1 = [] from rfl,
    List.nil_append] at h2
  rw [h2]
  exact occPositions_pairwise toks 0 e.1

theorem buildPosMap_totalLen (toks : List String) :
    totalLen (buildPosMap toks) = toks.length := by
  have := buildPosMapGo_totalLen toks 0 []
  simpa [totalLen] using this

/-- One document's processing (`src/indexer.rs` lines 69–99), after the
HTML parse: tokenize title and body, concatenate (title tokens first),
record `length`, build the position map, and keep the 500-character
snippet as the stored body. -/
def processPage (p : Page) : DocMeta × List (String × List Nat) :=
  let title_tokens := tokenize p.title
  let body_tokens := tokenize p.body
  let all_tokens := title_tokens ++ body_tokens
  (⟨p.url, p.title, String.mk (p.body.data.take 500), all_tokens.length⟩,
    buildPosMap all_tokens)

/-- The sequential assembly loop (`src/indexer.rs` lines 106–115):
append the `DocMeta` and push one posting per `pos_map` entry, with
`doc_id` the enumeration counter. -/
def assembleGo : Nat → List (DocMeta × List (String × List Nat)) →
    List (String × List Posting) × List DocMeta →
    List (String × List Posting) × List DocMeta
  | _, [], acc => acc
  | doc_id, (meta, pos_map) :: rest, (dict, docs) =>
      assembleGo (doc_id + 1) rest
        (pos_map.foldl
          (fun dd e => entryPush dd e.1 ⟨doc_id, e.2.length, e.2⟩) dict,
          docs ++ [meta])

/-- `build_index` after the filesystem walk and the HTML parse
(`src/indexer.rs` lines 67–121): process the pages, assemble docs and
dictionary with dense sequential doc ids, set `doc_count`, and sort
each posting list by doc id. -/
def build_index (pages : List Page) : IndexStore :=
  let st := assembleGo 0 (pages.map processPage) ([], [])
  { dict := st.1.map (fun e =>
      (e.1, e.2.mergeSort (fun p q => decide (p.doc_id ≤ q.doc_id))))
    docs := st.2
    doc_count := st.2.length }

/-- Total `tf` mass of document `d` across all terms of the dictionary. -/
def docTfSum (dict : List (String × List Posting)) (d : Nat) : Nat :=
  sumVals (fun p => if p.doc_id = d then p.tf else 0) dict

/-- All values of all entries satisfy `P`. -/
def AllVals {β : Type} (P : β → Prop) (m : List (String × List β)) : Prop :=
  ∀ e ∈ m, ∀ x ∈ e.2, P x

theorem entryGet_subset {β : Type} (m : List (String × List β)) (t : String) :
    ∀ y ∈ entryGet m t, ∃ e ∈ m, y ∈ e.2 := by
  intro y hy
  rcases entryGet_cases m t with h | ⟨e, he, _, h2⟩
  · rw [h] at hy; cases hy
  · rw [h2] at hy; exact ⟨e, he, hy⟩

theorem AllVals_entryPush {β : Type} (P : β → Prop) (m : List (String × List β))
    (t : String) (x : β) (hm : AllVals P m) (hx : P x) :
    AllVals P (entryPush m t x) := by
  intro e he y hy
  rcases mem_entryPush m t x e he with h | h
  · exact hm e h y hy
  · rw [h] at hy
    rcases List.mem_append.mp hy with h' | h'
    · rcases entryGet_subset m t y h' with ⟨e', he', hy'⟩
      exact hm e' he' y hy'
    · rw [List.mem_singleton.mp h']
      exact hx

theorem AllVals_foldPush {β γ : Type} (P : β → Prop) (k : γ → String) (g : γ → β) :
    ∀ (pm : List γ) (dict : List (String × List β)),
      AllVals P dict → (∀ e ∈ pm, P (g e)) →
      AllVals P (pm.foldl (fun dd e => entryPush dd (k e) (g e)) dict) := by
  intro pm
  induction pm with
  | nil => intro dict h _; exact h
  | cons e rest ih =>
      intro dict hd hp
      rw [List.foldl_cons]
      exact ih (entryPush dict (k e) (g e))
        (AllVals_entryPush P dict (k e) (g e) hd (hp e (List.mem_cons_self e rest)))
        (fun e' he' => hp e' (List.mem_cons_of_mem e he'))

theorem sumVals_foldPush {β γ : Type} (f : β → Nat) (k : γ → String) (g : γ → β) :
    ∀ (pm : List γ) (dict : List (String × List β)),
      sumVals f (pm.foldl (fun dd e => entryPush dd (k e) (g e)) dict) =
        sumVals f dict + (pm.map (fun e => f (g e))).sum := by
  intro pm
  induction pm with
  | nil => intro dict; simp
  | cons e rest ih =>
      intro dict
      rw [List.foldl_cons, ih (entryPush dict (k e) (g e)), sumVals_entryPush]
      simp
      omega

/-- Posting lists have strictly increasing doc ids, all below `i`. -/
def PostKeyInv (i : Nat) (dict : List (String × List Posting)) : Prop :=
  ∀ e ∈ dict, ((e.2.map (fun p => p.doc_id)).Pairwise (· < ·)) ∧
    ∀ p ∈ e.2, p.doc_id < i

theorem PostKeyInv_mono (i j : Nat) (hij : i ≤ j)
    (dict : List (String × List Posting)) (h : PostKeyInv i dict) :
    PostKeyInv j dict :=
  fun e he => ⟨(h e he).1,
    fun p hp => Nat.lt_of_lt_of_le ((h e he).2 p hp) hij⟩

theorem addDoc_PostKeyInv (i : Nat) :
    ∀ (pm : List (String × List Nat)) (dict : List (String × List Posting)),
      (pm.map Prod.fst).Nodup →
      PostKeyInv (i + 1) dict →
      (∀ s ∈ pm.map Prod.fst, ∀ p ∈ entryGet dict s, p.doc_id < i) →
      PostKeyInv (i + 1)
        (pm.foldl
          (fun dd e => entryPush dd e.1 (⟨i, e.2.length, e.2⟩ : Posting)) dict) := by
  intro pm
  induction pm with
  | nil => intro dict _ h _; exact h
  | cons e rest ih =>
      intro dict hnd hinv hbound
      have hnd' : (e.1 :: rest.map Prod.fst).Nodup := by simpa using hnd
      rw [List.foldl_cons]
      apply ih
      · exact (List.nodup_cons.mp hnd').2
      · intro en hen
        rcases mem_entryPush dict e.1 _ en hen with h | h
        · exact hinv en h
        · rw [h]
          constructor
          · show ((entryGet dict e.1 ++
              [(⟨i, e.2.length, e.2⟩ : Posting)]).map (fun p => p.doc_id)).Pairwise (· < ·)
            rw [List.map_append]
            apply List.pairwise_append.mpr
            refine ⟨?_, by simp, ?_⟩
            · rcases entryGet_cases dict e.1 with hc | ⟨e', he', _, h2⟩
              · rw [hc]; simp
              · rw [h2]; exact (hinv e' he').1
            · intro a ha b hb
              rcases List.mem_map.mp ha with ⟨p, hp, rfl⟩
              have hb' : b = i := by simpa using hb
              rw [hb']
              exact hbound e.1 (by simp) p hp
          · intro p hp
            rcases List.mem_append.mp hp with h' | h'
            · exact Nat.lt_succ_of_lt (hbound e.1 (by simp) p h')
            · rw [List.mem_singleton.mp h']
              exact Nat.lt_succ_self i
      · intro s hs p hp
        have hne : ¬ s = e.1 := by
          intro hc
          exact (List.nodup_cons.mp hnd').1 (hc ▸ hs)
        rw [entryGet_push, if_neg hne] at hp
        exact hbound s (by simpa using Or.inr hs) p hp

/-- Every posting records its positions count as `tf` and has strictly
increasing positions. -/
def TfPosInv (dict : List (String × List Posting)) : Prop :=
  AllVals (fun p : Posting =>
    p.tf = p.positions.length ∧ p.positions.Pairwise (· < ·)) dict

/-- The per-document `tf` mass of the dictionary matches the recorded
document lengths. -/
def DocLenInv (dict : List (String × List Posting)) (docs : List DocMeta) : Prop :=
  ∀ d : Nat, docTfSum dict d = (docs.map (fun m => m.length)).getD d 0

/-- What `processPage` guarantees about one processed document. -/
def GoodItem (it : DocMeta × List (String × List Nat)) : Prop :=
  (it.2.map Prod.fst).Nodup ∧ (∀ e ∈ it.2, e.2.Pairwise (· < ·)) ∧
    totalLen it.2 = it.1.length

theorem processPage_good (p : Page) : GoodItem (processPage p) :=
  ⟨buildPosMap_keys_nodup _, buildPosMap_pairwise _, buildPosMap_totalLen _⟩

theorem docTfSum_addDoc (i : Nat) (pm : List (String × List Nat))
    (dict : List (String × List Posting)) (d : Nat) :
    docTfSum
        (pm.foldl
          (fun dd e => entryPush dd e.1 (⟨i, e.2.length, e.2⟩ : Posting)) dict) d =
      docTfSum dict d + (if i = d then totalLen pm else 0) := by
  unfold docTfSum
  rw [sumVals_foldPush]
  congr 1
  by_cases h : i = d
  · rw [if_pos h]
    simp [h, totalLen]
  · rw [if_neg h]
    apply List.sum_eq_zero
    intro x hx
    rcases List.mem_map.mp hx with ⟨e, _, rfl⟩
    simp [h]

theorem assembleGo_inv :
    ∀ (items : List (DocMeta × List (String × List Nat)))
      (dict : List (String × List Posting)) (docs : List DocMeta),
      (∀ it ∈ items, GoodItem it) →
      TfPosInv dict → PostKeyInv docs.length dict → DocLenInv dict docs →
      TfPosInv (assembleGo docs.length items (dict, docs)).1 ∧
        PostKeyInv (assembleGo docs.length items (dict, docs)).2.length
          (assembleGo docs.length items (dict, docs)).1 ∧
        DocLenInv (assembleGo docs.length items (dict, docs)).1
          (assembleGo docs.length items (dict, docs)).2 := by
  intro items
  induction items with
  | nil => intro dict docs _ h1 h2 h3; exact ⟨h1, h2, h3⟩
  | cons it rest ih =>
      intro dict docs hgood h1 h2 h3
      obtain ⟨meta, pm⟩ := it
      have hgd := hgood (meta, pm) (List.mem_cons_self _ _)
      have hstep : assembleGo docs.length ((meta, pm) :: rest) (dict, docs) =
          assembleGo (docs.length + 1) rest
            (pm.foldl
              (fun dd e => entryPush dd e.1 ⟨docs.length, e.2.length, e.2⟩) dict,
              docs ++ [meta]) := rfl
      rw [hstep]
      have hlen : (docs ++ [meta]).length = docs.length + 1 := by simp
      rw [← hlen]
      apply ih
      · exact fun it' hit' => hgood it' (List.mem_cons_of_mem _ hit')
      · apply AllVals_foldPush _ _ _ pm dict h1
        intro e he
        exact ⟨rfl, hgd.2.1 e he⟩
      · rw [hlen]
        apply addDoc_PostKeyInv docs.length pm dict hgd.1
          (PostKeyInv_mono _ _ (Nat.le_succ _) dict h2)
        intro s hs p hp
        rcases entryGet_subset dict s p hp with ⟨e', he', hp'⟩
        exact (h2 e' he').2 p hp'
      · intro d
        rw [docTfSum_addDoc]
        by_cases hd : docs.length = d
        · rw [if_pos hd]
          have hold : docTfSum dict d = 0 := by
            rw [h3 d, ← hd, List.getD_eq_getElem?_getD,
              List.getElem?_eq_none (by simp), Option.getD_none]
          rw [hold, hgd.2.2, Nat.zero_add, ← hd]
          simp only [List.map_append, List.map_cons, List.map_nil]
          have hidx : docs.length = (docs.map (fun m => m.length)).length := by simp
          rw [List.getD_eq_getElem?_getD, hidx, List.getElem?_concat_length,
            Option.getD_some]
        · rw [if_neg hd, Nat.add_zero, h3 d, List.map_append]
          rcases Nat.lt_or_ge d docs.length with hlt | hge
          · rw [List.getD_eq_getElem?_getD, List.getD_eq_getElem?_getD,
              List.getElem?_append_left (by simp [hlt])]
          · have hgt : docs.length < d := Nat.lt_of_le_of_ne hge (fun hc => hd hc)
            rw [List.getD_eq_getElem?_getD, List.getD_eq_getElem?_getD,
              List.getElem?_eq_none (by simp; omega),
              List.getElem?_eq_none (by simp; omega)]

theorem getD_map_length (docs : List DocMeta) (d : Nat) (hd : d < docs.length) :
    (docs.map (fun m => m.length)).getD d 0 = (docAt docs d).length := by
  unfold docAt
  rw [List.getD_eq_getElem?_getD, List.getD_eq_getElem?_getD, List.getElem?_map,
    List.getElem?_eq_getElem hd]
  rfl

/-- Claim C3: every store built by `build_index` satisfies the posting
invariants: `tf` equals the positions count, positions are strictly
increasing, posting lists are strictly ascending in doc id (sorted, no
duplicates), every doc id is below `doc_count`, and each document's
recorded length is the total `tf` of its postings across all terms. -/
theorem c3_build_index_invariants (pages : List Page) :
    (∀ e ∈ (build_index pages).dict, ∀ p ∈ e.2, p.tf = p.positions.length) ∧
      (∀ e ∈ (build_index pages).dict, ∀ p ∈ e.2,
        p.positions.Pairwise (· < ·)) ∧
      (∀ e ∈ (build_index pages).dict,
        (e.2.map (fun p => p.doc_id)).Pairwise (· < ·)) ∧
      (∀ e ∈ (build_index pages).dict, ∀ p ∈ e.2,
        p.doc_id < (build_index pages).doc_count) ∧
      (∀ d, d < (build_index pages).doc_count →
        (docAt (build_index pages).docs d).length =
          docTfSum (build_index pages).dict d) := by
  have hmain := assembleGo_inv (pages.map processPage) [] []
    (fun it hit => by
      rcases List.mem_map.mp hit with ⟨p, _, rfl⟩
      exact processPage_good p)
    (fun e he => absurd he (by simp))
    (fun e he => absurd he (by simp))
    (fun d => by simp [docTfSum, sumVals])
  simp only [List.length_nil] at hmain
  obtain ⟨h1, h2, h3⟩ := hmain
  have hdict : (build_index pages).dict =
      (assembleGo 0 (pages.map processPage) ([], [])).1 := by
    show (assembleGo 0 (pages.map processPage) ([], [])).1.map
        (fun e => (e.1, e.2.mergeSort (fun p q => decide (p.doc_id ≤ q.doc_id)))) = _
    rw [List.map_congr_left (g := fun e => e) ?_, List.map_id']
    intro e he
    have hpw : e.2.Pairwise (fun p q => decide (p.doc_id ≤ q.doc_id) = true) := by
      have hm := List.pairwise_map.mp (h2 e he).1
      exact hm.imp (fun hlt => decide_eq_true (Nat.le_of_lt hlt))
    rw [List.mergeSort_of_sorted hpw]
  have hdocs : (build_index pages).docs =
      (assembleGo 0 (pages.map processPage) ([], [])).2 := rfl
  have hcount : (build_index pages).doc_count =
      (assembleGo 0 (pages.map processPage) ([], [])).2.length := rfl
  refine ⟨?_, ?_, ?_, ?_, ?_⟩
  · intro e he p hp
    exact (h1 e (hdict ▸ he) p hp).1
  · intro e he p hp
    exact (h1 e (hdict ▸ he) p hp).2
  · intro e he
    exact (h2 e (hdict ▸ he)).1
  · intro e he p hp
    rw [hcount]
    exact (h2 e (hdict ▸ he)).2 p hp
  · intro d hd
    rw [hdict, hdocs, h3 d, getD_map_length]
    rw [hcount] at hd
    exact hd

/-- Witness pages for C3: one document, title `a`, body `b a`. -/
def wPages : List Page := [⟨"u", "a", "b a"⟩]

unseal List.merge List.mergeSort in
/-- Witness for C3 at the concrete one-page build: the posting of term
`a` records `tf = len(positions)`, and document 0's recorded length is
its total `tf` mass. -/
theorem c3_witness :
    (Posting.mk 0 2 [0, 2]).tf = (Posting.mk 0 2 [0, 2]).positions.length ∧
      (docAt (build_index wPages).docs 0).length =
        docTfSum (build_index wPages).dict 0 :=
  ⟨(c3_build_index_invariants wPages).1 ("a", [⟨0, 2, [0, 2]⟩]) (by decide)
      ⟨0, 2, [0, 2]⟩ (by decide),
    (c3_build_index_invariants wPages).2.2.2.2 0 (by decide)⟩

end SearchEngine
